import Mathlib

/-!
Verification development for the System_Reliability_Analysis repository.

The definitions below are a shallow embedding of the Python sources:
`src/models/components.py`, `src/models/system.py`,
`src/algorithms/cutset/mocus.py`, `src/algorithms/cutset/bdd.py`,
`src/algorithms/reliability/inclusion_exclusion.py`,
`src/algorithms/reliability/importance.py`,
`src/algorithms/simulation/monte_carlo.py`.

Python floats are embedded as `ℚ` (the claims under study are exact
arithmetic identities, not rounding statements), node identifiers as
`String`, Python sets of component ids as `Finset String`, dictionaries
as association lists with `List.lookup`, and raising code as
`Except`-valued functions.
-/

/-- `SystemGraph.source`: the fixed source sentinel node id (`src/models/system.py`). -/
def sourceNode : String := "source"

/-- `SystemGraph.sink`: the fixed sink sentinel node id (`src/models/system.py`). -/
def sinkNode : String := "sink"

/-- The failure-distribution variants of `src/models/failure_models.py` /
`src/models/components.py`, as a closed tagged type.  Only the parameters are
kept; the real-valued capability functions (`probability_of_failure`, ...) are
abstracted where a claim needs them.  Note that `src/models/components.py`
defines a second `ExponentialDistribution` *without* the positivity check of
`failure_models.py`, and the importers (`src/utils/importers.py`) build that
unchecked variant straight from user files, so a `failure_rate` of `0` is
constructible in the repository. -/
inductive FailureDist where
  | exponential (failure_rate : ℚ)
  | weibull (shape scale : ℚ)
  | logNormal (mu sigma : ℚ)
  deriving DecidableEq, Repr

/-- `Component` (`src/models/components.py`): id, display name and an optional
failure distribution.  The optional free-text description plays no role in any
analyzed operation and is omitted. -/
structure Component where
  id : String
  name : String
  failure_distribution : Option FailureDist := none
  deriving DecidableEq, Repr

/-- `SystemGraph` (`src/models/system.py`): the component dictionary (as an
insertion-ordered list) and the directed edge set of the underlying
`networkx.DiGraph`.  The two sentinel nodes are always present. -/
structure SystemGraph where
  components : List Component
  edges : List (String × String)
  deriving DecidableEq, Repr

/-- The node set of the graph: both sentinels plus the component ids
(`SystemGraph.__init__` adds the terminals, `add_component` adds one node per
component). -/
def SystemGraph.nodeList (g : SystemGraph) : List String :=
  sourceNode :: sinkNode :: g.components.map Component.id

/-- Builder invariant enforced by `SystemGraph.add_connection`: every edge
references only nodes already present in the graph. -/
def SystemGraph.WF (g : SystemGraph) : Prop :=
  ∀ e ∈ g.edges, e.1 ∈ g.nodeList ∧ e.2 ∈ g.nodeList

instance (g : SystemGraph) : Decidable g.WF := by
  unfold SystemGraph.WF; infer_instance

/-- `networkx.DiGraph.successors`: the out-neighbours of a node (a simple graph,
so parallel edges collapse; `dedup` reflects that `add_edge` is idempotent). -/
def SystemGraph.successors (g : SystemGraph) (u : String) : List String :=
  ((g.edges.filter (fun e => decide (e.1 = u))).map Prod.snd).dedup

/-- Depth-first enumeration of all simple paths from `u` to `t` avoiding
`visited`, the semantics of `networkx.all_simple_paths` used by
`SystemGraph.get_all_paths`.  `fuel` bounds the recursion depth; any value at
least the number of graph nodes enumerates every simple path. -/
def simplePathsFrom (g : SystemGraph) : ℕ → String → String → List String → List (List String)
  | 0, _, _, _ => []
  | fuel + 1, u, t, visited =>
    if u = t then [[t]]
    else
      ((g.successors u).filter (fun v => decide (v ∉ u :: visited))).flatMap
        (fun v => (simplePathsFrom g fuel v t (u :: visited)).map (fun p => u :: p))

/-- `SystemGraph.get_all_paths`: all simple source→sink paths. -/
def SystemGraph.get_all_paths (g : SystemGraph) : List (List String) :=
  simplePathsFrom g g.nodeList.length sourceNode sinkNode []

/-! ## Minimality reduction shared by both cut-set engines -/

/-- One acceptance step of the minimality filter: keep `cs` only when no
already-accepted set is a subset of it. -/
def minStep (minimal : List (Finset String)) (cs : Finset String) : List (Finset String) :=
  if minimal.any (fun m => decide (m ⊆ cs)) then minimal else minimal ++ [cs]

/-- Sort candidates by size ascending, then keep a candidate only if no
already-accepted candidate is a subset of it.  This is the common effective
algorithm of `MOCUSAnalyzer._remove_non_minimal` and
`BDDAnalyzer._minimize_cut_sets`. -/
def minimizeBySize (cut_sets : List (Finset String)) : List (Finset String) :=
  (cut_sets.insertionSort (fun a b => a.card ≤ b.card)).foldl minStep []

/-- `MOCUSAnalyzer._remove_non_minimal` (`src/algorithms/cutset/mocus.py`):
sorts the frozensets by length and accepts a set only when no already-accepted
minimal set is a subset of it.  The Python accumulates the accepted sets into a
`set` (so equal sets are never kept twice and the returned list order is
unspecified); the embedding keeps them in acceptance order, which realizes one
admissible order and the same collection of sets. -/
def MOCUSAnalyzer.remove_non_minimal (cut_sets : List (Finset String)) : List (Finset String) :=
  minimizeBySize cut_sets

/-- `BDDAnalyzer._minimize_cut_sets` (`src/algorithms/cutset/bdd.py`): sorts by
size then keeps a set unless an already-accepted set is a subset of it.  The
inner loop over the remaining larger sets only ever re-assigns
`is_minimal = True`, so it never rejects anything and the kept condition is
exactly the subset test against the accepted list. -/
def BDDAnalyzer.minimize_cut_sets (cut_sets : List (Finset String)) : List (Finset String) :=
  minimizeBySize cut_sets

/-! ## MOCUS engine (`src/algorithms/cutset/mocus.py`) -/

/-- A component is "perfectly reliable" for the MOCUS stripping step iff its
distribution object has a `failure_rate` attribute equal to zero; among the
repository's distribution classes only the exponential one carries that
attribute. -/
def perfectlyReliable (c : Component) : Bool :=
  match c.failure_distribution with
  | some (FailureDist.exponential r) => decide (r = 0)
  | _ => false

/-- One fan-out step of the MOCUS cross-product: each current cut set is
extended by each component of the new path. -/
def crossStep (css : List (Finset String)) (path : List String) : List (Finset String) :=
  css.flatMap (fun cs => path.map (fun c => insert c cs))

/-- The iterative cross-product of `MOCUSAnalyzer.find_minimal_cut_sets`:
seed with the singletons of the first component path, then fan out over each
remaining path. -/
def mocusCross (component_paths : List (List String)) : List (Finset String) :=
  match component_paths with
  | [] => []
  | p :: rest => rest.foldl crossStep (p.map (fun c => {c}))

/-- The `component_paths` built inside `MOCUSAnalyzer.find_minimal_cut_sets`:
every enumerated path longer than a direct edge, stripped of the sentinels and
of the zero-failure-rate components, empty results dropped. -/
def MOCUSAnalyzer.component_paths (g : SystemGraph) : List (List String) :=
  (((g.get_all_paths).filter (fun p => decide (2 < p.length))).map
      (fun p => p.filter (fun v => decide (v ≠ sourceNode ∧ v ≠ sinkNode ∧
        v ∉ (g.components.filter perfectlyReliable).map Component.id)))).filter
    (fun p => decide (p ≠ []))

/-- `MOCUSAnalyzer.find_minimal_cut_sets`: direct source→sink short-circuit,
path enumeration, removal of length-2 (direct) paths, stripping of sentinels
and zero-failure-rate components, cross-product expansion, minimality
reduction. -/
def MOCUSAnalyzer.find_minimal_cut_sets (g : SystemGraph) : List (Finset String) :=
  if sinkNode ∈ g.successors sourceNode then []
  else if (g.get_all_paths).filter (fun p => decide (2 < p.length)) = [] then []
  else if MOCUSAnalyzer.component_paths g = [] then []
  else MOCUSAnalyzer.remove_non_minimal (mocusCross (MOCUSAnalyzer.component_paths g))

/-! ## BDD engine (`src/algorithms/cutset/bdd.py`)

The `dd` package's BDD is a canonical representation of a Boolean function
over the declared variables (one per component), so the embedding represents
the constructed function semantically, as `(String → Bool) → Bool`, with the
declared variable list alongside.  Equality tests against the constant
functions and the support computation are the decidable semantic ones, which
is exactly what canonicity gives the Python code, and `pick_iter` (with its
default `care_vars = support`) enumerates the total satisfying assignments of
the function over its support, leaving every other declared variable out of
every yielded assignment.  The variable reordering heuristic changes only
diagram size, never the represented function, and is dropped. -/

/-- Conjunction of one path's component variables: the path works iff all its
components work. -/
def pathWorks (path : List String) (a : String → Bool) : Bool := path.all a

/-- Disjunction over the path functions: the system works iff some path works. -/
def systemWorks (component_paths : List (List String)) (a : String → Bool) : Bool :=
  component_paths.any (fun p => pathWorks p a)

/-- The system failure function: complement of the system working function. -/
def failureFun (component_paths : List (List String)) (a : String → Bool) : Bool :=
  ! systemWorks component_paths a

/-- Semantic test `f == bdd.false`, by checking every assignment of the
declared variables (all assignments realized as subsets of the variable
list; variables never declared are irrelevant to the functions built here). -/
def isConstFalse (vars : List String) (f : (String → Bool) → Bool) : Bool :=
  vars.sublists.all (fun W => ! f (fun v => decide (v ∈ W)))

/-- Semantic test `f == bdd.true`. -/
def isConstTrue (vars : List String) (f : (String → Bool) → Bool) : Bool :=
  vars.sublists.all (fun W => f (fun v => decide (v ∈ W)))

/-- Whether the function semantically depends on variable `v` (membership of
`v` in the BDD support): some assignment of the other variables at which
toggling `v` changes the value. -/
def dependsOn (vars : List String) (f : (String → Bool) → Bool) (v : String) : Bool :=
  vars.sublists.any (fun W =>
    f (fun u => decide (u ∈ W ∨ u = v)) != f (fun u => decide (u ∈ W ∧ u ≠ v)))

/-- The BDD support: the declared variables the function depends on. -/
def supportOf (vars : List String) (f : (String → Bool) → Bool) : List String :=
  vars.filter (fun v => dependsOn vars f v)

/-- The cut-set candidates extracted from `pick_iter`: for each total
satisfying assignment over the support (all other variables are don't-cares,
evaluated as working), collect the set of variables assigned failed (0). -/
def pickZeroSets (vars : List String) (f : (String → Bool) → Bool) : List (Finset String) :=
  let supp := supportOf vars f
  ((supp.sublists.filter
      (fun Z => f (fun v => if v ∈ supp then decide (v ∉ Z) else true))).map
    List.toFinset).dedup

/-- `BDDAnalyzer._extract_minimal_cut_sets`: the constant-function special
cases, then the zero-sets of the satisfying assignments, minimized. -/
def BDDAnalyzer.extract_minimal_cut_sets (vars : List String)
    (f : (String → Bool) → Bool) : List (Finset String) :=
  if isConstFalse vars f then []
  else if isConstTrue vars f then [∅]
  else BDDAnalyzer.minimize_cut_sets (pickZeroSets vars f)

/-- `BDDAnalyzer._create_structure_function`: skip direct (length-2) paths,
conjoin each remaining path's components, disjoin the paths, and return the
complement; a detected direct path yields the constant-false failure function
and an empty path-function list yields the constant-true one. -/
def BDDAnalyzer.create_structure_function (component_paths : List (List String))
    (hasDirect : Bool) : (String → Bool) → Bool :=
  if hasDirect then fun _ => false
  else if component_paths = [] then fun _ => true
  else failureFun component_paths

/-- The per-path component lists built inside
`BDDAnalyzer._create_structure_function`: every non-direct path stripped of
the sentinels, empty results dropped. -/
def BDDAnalyzer.component_paths (g : SystemGraph) : List (List String) :=
  (((g.get_all_paths).filter (fun p => decide (p.length ≠ 2))).map
      (fun p => p.filter (fun v => decide (v ≠ sourceNode ∧ v ≠ sinkNode)))).filter
    (fun p => decide (p ≠ []))

/-- `BDDAnalyzer.find_minimal_cut_sets`: direct-connection check, path
enumeration, structure-function construction and cut-set extraction.  The
declared variables are the component ids. -/
def BDDAnalyzer.find_minimal_cut_sets (g : SystemGraph) : List (Finset String) :=
  if sinkNode ∈ g.successors sourceNode then []
  else if g.get_all_paths = [] then []
  else
    BDDAnalyzer.extract_minimal_cut_sets (g.components.map Component.id)
      (BDDAnalyzer.create_structure_function (BDDAnalyzer.component_paths g)
        ((g.get_all_paths).any (fun p => decide (p.length = 2))))

/-! ## Inclusion-exclusion probability engine
(`src/algorithms/reliability/inclusion_exclusion.py`) -/

/-- `InclusionExclusion.calculate_probability`: for each k = 1..n, the signed
sum over all k-combinations of the given event probabilities of the plain
product of the chosen probabilities (`itertools.combinations` enumerates index
combinations; `List.sublistsLen` enumerates the same combinations by
position). -/
def InclusionExclusion.calculate_probability (events_prob : List ℚ) : ℚ :=
  if events_prob.length = 0 then 0
  else
    ((List.range events_prob.length).map (fun j =>
        (-1 : ℚ) ^ j *
          ((events_prob.sublistsLen (j + 1)).map (fun combo => combo.foldl (· * ·) 1)).sum)).sum

/-- The per-cut-set probability loop of
`InclusionExclusion.calculate_system_unreliability`: the product of the
members' failure probabilities, raising (here: `Except.error`, in Python:
`ValueError`) as soon as a member is absent from the probability map.  The
loop multiplies sequentially over an unordered Python set, so the observable
outcome is: an error iff some member is missing, else the product. -/
def cutSetProbE (cs : Finset String) (component_probs : List (String × ℚ)) : Except String ℚ :=
  if ∀ c ∈ cs, (component_probs.lookup c).isSome then
    Except.ok (∏ c ∈ cs, (component_probs.lookup c).getD 0)
  else Except.error "No probability defined for component"

/-- The cut-set loop of `calculate_system_unreliability`: build the list of
per-cut-set probabilities, propagating the first raise. -/
def cutSetProbsE (cut_sets : List (Finset String)) (component_probs : List (String × ℚ)) :
    Except String (List ℚ) :=
  match cut_sets with
  | [] => Except.ok []
  | cs :: rest =>
    match cutSetProbE cs component_probs with
    | Except.error e => Except.error e
    | Except.ok p =>
      match cutSetProbsE rest component_probs with
      | Except.error e => Except.error e
      | Except.ok ps => Except.ok (p :: ps)

/-- `InclusionExclusion.calculate_system_unreliability`: per-cut-set products
(hard error on a missing component probability) combined by
`calculate_probability`. -/
def InclusionExclusion.calculate_system_unreliability (cut_sets : List (Finset String))
    (component_probs : List (String × ℚ)) : Except String ℚ :=
  match cutSetProbsE cut_sets component_probs with
  | Except.error e => Except.error e
  | Except.ok cut_set_probs => Except.ok (InclusionExclusion.calculate_probability cut_set_probs)

/-- The specification's stated semantics for §4.4, written for refinement
comparison from the spec's words, not from the code: for each k-subset of cut
sets the term is the product of the failure probabilities of the **union** of
the member components (a shared component counted once), with alternating
sign. -/
def specUnionUnreliability (cut_sets : List (Finset String)) (probs : String → ℚ) : ℚ :=
  ((List.range cut_sets.length).map (fun j =>
      (-1 : ℚ) ^ j *
        ((cut_sets.sublistsLen (j + 1)).map
            (fun combo => ∏ c ∈ combo.foldl (· ∪ ·) ∅, probs c)).sum)).sum

/-! ## Importance measures (`src/algorithms/reliability/importance.py`) -/

/-- The per-cut-set probability loop of
`ImportanceMeasures._evaluate_reliability`: unlike the probability engine, a
member absent from the map sets the whole cut-set probability to `0.0`
(`cs_prob = 0.0  # Component not in dict means we assume it always works`),
and once zero it stays zero through the remaining multiplications; so the
outcome is `0` iff some member is missing, else the product. -/
def ImportanceMeasures.cut_set_prob (cs : Finset String)
    (component_probs : List (String × ℚ)) : ℚ :=
  if ∀ c ∈ cs, (component_probs.lookup c).isSome then
    ∏ c ∈ cs, (component_probs.lookup c).getD 0
  else 0

/-- `ImportanceMeasures._evaluate_reliability`: turn reliabilities into failure
probabilities, compute each cut set's probability (`0` on a missing member),
combine by `calculate_probability`, and return one minus the result.  Total:
this code path cannot raise. -/
def ImportanceMeasures.evaluate_reliability (cut_sets : List (Finset String))
    (component_reliabilities : List (String × ℚ)) : ℚ :=
  let component_probs := component_reliabilities.map (fun cr => (cr.1, 1 - cr.2))
  let cut_set_probs := cut_sets.map (fun cs => ImportanceMeasures.cut_set_prob cs component_probs)
  1 - InclusionExclusion.calculate_probability cut_set_probs

/-- `ImportanceMeasures.birnbaum_importance` at a fixed time point.  The
per-component call `component.probability_of_failure(time)` is abstracted as
the map `pof`; `component_ids` is the insertion-ordered key list of
`system.components`.  For each component: system reliability with it clamped
to working (reliability 1) minus system reliability with it clamped to failed
(reliability 0), both via `_evaluate_reliability`. -/
def ImportanceMeasures.birnbaum_importance (component_ids : List String)
    (pof : String → ℚ) (cut_sets : List (Finset String)) : List (String × ℚ) :=
  component_ids.map (fun comp_id =>
    let working_probs := component_ids.map (fun c => (c, if c = comp_id then 1 else 1 - pof c))
    let rel_working := ImportanceMeasures.evaluate_reliability cut_sets working_probs
    let failed_probs := component_ids.map (fun c => (c, if c = comp_id then 0 else 1 - pof c))
    let rel_failed := ImportanceMeasures.evaluate_reliability cut_sets failed_probs
    (comp_id, rel_working - rel_failed))

/-- `ImportanceMeasures.criticality_importance`: Birnbaum importance times the
component's own failure probability over the system unreliability, with the
whole map clamped to zero when the system unreliability is below `1e-10`.
Total: this code path cannot raise either. -/
def ImportanceMeasures.criticality_importance (component_ids : List String)
    (pof : String → ℚ) (cut_sets : List (Finset String)) : List (String × ℚ) :=
  let birnbaum := ImportanceMeasures.birnbaum_importance component_ids pof cut_sets
  let sys_probs := component_ids.map (fun c => (c, 1 - pof c))
  let system_unreliability :=
    1 - ImportanceMeasures.evaluate_reliability cut_sets sys_probs
  component_ids.map (fun comp_id =>
    if |system_unreliability| < 1 / 10 ^ 10 then (comp_id, 0)
    else (comp_id, ((birnbaum.lookup comp_id).getD 0) * pof comp_id / system_unreliability))

/-! ## Monte Carlo simulation engine
(`src/algorithms/simulation/monte_carlo.py`)

The sampled failure times (`random_failure_time`) are abstracted as an input
`ft : String → ℕ → ℚ` giving component `c`'s sampled lifetime in trial `i`;
the claims under study are about what `simulate` computes from given samples.
A supplied progress callback is a Python callable invoked for its side effect
only; what is observable inside `simulate` is merely whether one was supplied,
because evaluating `trial % (num_trials // 100)` with a callback present
raises `ZeroDivisionError` whenever `num_trials // 100 == 0`. -/

/-- Typed stand-ins for the exceptions `simulate` can raise. -/
inductive SimError where
  /-- `ValueError("System has no valid paths")`. -/
  | noValidPaths
  /-- `ValueError(f"Component ... has no failure distribution")`. -/
  | noDistribution (comp_id : String)
  /-- `ZeroDivisionError` from `trial % (num_trials // 100)`. -/
  | zeroDivision
  deriving DecidableEq, Repr

/-- One result row of the returned DataFrame.  The two confidence-interval
columns are the real-valued functions `ciLower`/`ciUpper` below of the
`reliability` and `trials` fields and are therefore determined by this row. -/
structure SimRow where
  time : ℚ
  reliability : ℚ
  unreliability : ℚ
  trials : ℕ
  failures : ℕ
  deriving DecidableEq, Repr

/-- `margin = 1.96 * sqrt(reliability * (1 - reliability) / num_trials)`. -/
noncomputable def ciMargin (reliability : ℚ) (num_trials : ℕ) : ℝ :=
  (196 / 100 : ℝ) * Real.sqrt ((reliability : ℝ) * (1 - (reliability : ℝ)) / num_trials)

/-- `ci_lower = max(0, reliability - margin)`. -/
noncomputable def ciLower (reliability : ℚ) (num_trials : ℕ) : ℝ :=
  max 0 ((reliability : ℝ) - ciMargin reliability num_trials)

/-- `ci_upper = min(1, reliability + margin)`. -/
noncomputable def ciUpper (reliability : ℚ) (num_trials : ℕ) : ℝ :=
  min 1 ((reliability : ℝ) + ciMargin reliability num_trials)

/-- The per-trial loop of `simulate` for one time point: the trial fails iff
every path has a component whose sampled failure time is at most the time
point; then, if a callback was supplied, `trial % (num_trials // 100)` is
evaluated, which raises as soon as `num_trials // 100` is zero (and otherwise
only fires the advisory callback). -/
def mcLoop (paths : List (List String)) (ft : String → ℕ → ℚ) (num_trials : ℕ) (tp : ℚ)
    (hasCallback : Bool) : List ℕ → ℕ → Except SimError ℕ
  | [], failure_count => Except.ok failure_count
  | trial :: rest, failure_count =>
    let system_failed := paths.all (fun p => p.any (fun c => decide (ft c trial ≤ tp)))
    let failure_count := if system_failed then failure_count + 1 else failure_count
    if hasCallback && decide (num_trials / 100 = 0) then Except.error SimError.zeroDivision
    else mcLoop paths ft num_trials tp hasCallback rest failure_count

/-- The path preprocessing of `simulate`: strip sentinels from every
enumerated path and drop the paths left empty. -/
def SystemGraph.strippedPaths (g : SystemGraph) : List (List String) :=
  ((g.get_all_paths).map
      (fun p => p.filter (fun v => decide (v ≠ sourceNode ∧ v ≠ sinkNode)))).filter
    (fun p => decide (p ≠ []))

/-- The time-point loop of `simulate`: check every component carries a
distribution, run the trials, and append the result row.  A zero `num_trials`
raises `ZeroDivisionError` at `failure_count / num_trials` just as in
Python. -/
def mcRows (g : SystemGraph) (paths : List (List String)) (ft : String → ℕ → ℚ)
    (num_trials : ℕ) (hasCallback : Bool) : List ℚ → Except SimError (List SimRow)
  | [] => Except.ok []
  | tp :: rest =>
    match g.components.find? (fun c => c.failure_distribution = none) with
    | some c => Except.error (SimError.noDistribution c.id)
    | none =>
      match mcLoop paths ft num_trials tp hasCallback (List.range num_trials) 0 with
      | Except.error e => Except.error e
      | Except.ok failure_count =>
        if num_trials = 0 then Except.error SimError.zeroDivision
        else
          match mcRows g paths ft num_trials hasCallback rest with
          | Except.error e => Except.error e
          | Except.ok rows =>
            Except.ok
              ({ time := tp
                 reliability := 1 - (failure_count : ℚ) / num_trials
                 unreliability := 1 - (1 - (failure_count : ℚ) / num_trials)
                 trials := num_trials
                 failures := failure_count } :: rows)

/-- `MonteCarloSimulation.simulate`: enumerate and strip the paths, raise on a
network with no valid path, then produce one row per requested time point. -/
def MonteCarloSimulation.simulate (g : SystemGraph) (ft : String → ℕ → ℚ)
    (time_points : List ℚ) (num_trials : ℕ) (hasCallback : Bool) :
    Except SimError (List SimRow) :=
  let paths := g.strippedPaths
  if paths = [] then Except.error SimError.noValidPaths
  else mcRows g paths ft num_trials hasCallback time_points

/-! ## Characterization of the shared minimality filter -/

lemma mem_foldl_minStep (l : List (Finset String)) (acc : List (Finset String))
    (S : Finset String) (hS : S ∈ l.foldl minStep acc) : S ∈ acc ∨ S ∈ l := by
  induction l generalizing acc with
  | nil => exact Or.inl hS
  | cons cs l ih =>
    simp only [List.foldl_cons, minStep] at hS
    by_cases h : (acc.any (fun m => decide (m ⊆ cs))) = true
    · rw [if_pos h] at hS
      rcases ih acc hS with h' | h'
      · exact Or.inl h'
      · exact Or.inr (List.mem_cons_of_mem _ h')
    · rw [if_neg h] at hS
      rcases ih (acc ++ [cs]) hS with h' | h'
      · rcases List.mem_append.1 h' with h'' | h''
        · exact Or.inl h''
        · have hSc : S = cs := by simpa using h''
          exact Or.inr (hSc ▸ List.mem_cons_self cs l)
      · exact Or.inr (List.mem_cons_of_mem _ h')

lemma foldl_minStep_covers (l : List (Finset String)) (acc : List (Finset String)) :
    ∀ S, (S ∈ acc ∨ S ∈ l) → ∃ a ∈ l.foldl minStep acc, a ⊆ S := by
  induction l generalizing acc with
  | nil =>
    intro S hS
    rcases hS with h | h
    · exact ⟨S, h, Finset.Subset.refl S⟩
    · cases h
  | cons cs l ih =>
    intro S hS
    simp only [List.foldl_cons, minStep]
    by_cases h : (acc.any (fun m => decide (m ⊆ cs))) = true
    · rw [if_pos h]
      rcases hS with h' | h'
      · exact ih acc S (Or.inl h')
      · rcases List.mem_cons.1 h' with h'' | h''
        · rcases List.any_eq_true.1 h with ⟨m, hm, hms⟩
          obtain ⟨a, ha, has⟩ := ih acc m (Or.inl hm)
          refine ⟨a, ha, has.trans ?_⟩
          rw [h'']
          simpa using hms
        · exact ih acc S (Or.inr h'')
    · rw [if_neg h]
      rcases hS with h' | h'
      · exact ih (acc ++ [cs]) S (Or.inl (List.mem_append.2 (Or.inl h')))
      · rcases List.mem_cons.1 h' with h'' | h''
        · exact ih (acc ++ [cs]) S (Or.inl (by simp [h'']))
        · exact ih (acc ++ [cs]) S (Or.inr h'')

lemma foldl_minStep_minimal (l : List (Finset String)) (acc : List (Finset String))
    (hsort : l.Sorted (fun a b : Finset String => a.card ≤ b.card))
    (hacc : ∀ a ∈ acc, ∀ t, (t ∈ acc ∨ t ∈ l) → t ⊆ a → t = a)
    (hcard : ∀ a ∈ acc, ∀ b ∈ l, a.card ≤ b.card) :
    ∀ S ∈ l.foldl minStep acc, ∀ T, (T ∈ acc ∨ T ∈ l) → T ⊆ S → T = S := by
  induction l generalizing acc with
  | nil =>
    intro S hS T hT hTS
    exact hacc S hS T (by tauto) hTS
  | cons cs l ih =>
    have hsort' : l.Sorted (fun a b : Finset String => a.card ≤ b.card) :=
      (List.sorted_cons.1 hsort).2
    have hhead : ∀ b ∈ l, cs.card ≤ b.card := (List.sorted_cons.1 hsort).1
    intro S hS T hT hTS
    simp only [List.foldl_cons, minStep] at hS
    by_cases h : (acc.any (fun m => decide (m ⊆ cs))) = true
    · rw [if_pos h] at hS
      -- rejected step: `cs` has an accepted subset
      have key : ∀ T', (T' ∈ acc ∨ T' ∈ l) → T' ⊆ S → T' = S := by
        refine ih acc hsort' ?_ ?_ S hS
        · intro a ha t ht hta
          exact hacc a ha t (by tauto) hta
        · intro a ha b hb
          exact hcard a ha b (List.mem_cons_of_mem _ hb)
      rcases hT with h' | h'
      · exact key T (Or.inl h') hTS
      · rcases List.mem_cons.1 h' with h'' | h''
        · -- T = cs: show cs = S
          subst h''
          rcases mem_foldl_minStep l acc S hS with hSa | hSl
          · exact Finset.eq_of_subset_of_card_le hTS
              (hcard S hSa T (List.mem_cons_self _ _))
          · rcases List.any_eq_true.1 h with ⟨m, hm, hms⟩
            have hmcs : m ⊆ T := by simpa using hms
            have hmS : m = S := key m (Or.inl hm) (hmcs.trans hTS)
            exact Finset.Subset.antisymm hTS (hmS ▸ hmcs)
        · exact key T (Or.inr h'') hTS
    · rw [if_neg h] at hS
      -- accepted step
      have hrej : ∀ m ∈ acc, ¬ m ⊆ cs := by
        intro m hm hms
        exact (by simpa using h : ¬ ∃ m ∈ acc, m ⊆ cs) ⟨m, hm, hms⟩
      have key : ∀ T', (T' ∈ acc ++ [cs] ∨ T' ∈ l) → T' ⊆ S → T' = S := by
        refine ih (acc ++ [cs]) hsort' ?_ ?_ S hS
        · intro a ha t ht hta
          rcases List.mem_append.1 ha with haa | hac
          · refine hacc a haa t ?_ hta
            rcases ht with ht | ht
            · rcases List.mem_append.1 ht with h1 | h1
              · exact Or.inl h1
              · simp at h1
                subst h1
                exact Or.inr (List.mem_cons_self _ _)
            · exact Or.inr (List.mem_cons_of_mem _ ht)
          · simp at hac
            subst hac
            rcases ht with ht | ht
            · rcases List.mem_append.1 ht with h1 | h1
              · exact absurd hta (hrej t h1)
              · simpa using h1
            · exact Finset.eq_of_subset_of_card_le hta (hhead t ht)
        · intro a ha b hb
          rcases List.mem_append.1 ha with haa | hac
          · exact hcard a haa b (List.mem_cons_of_mem _ hb)
          · simp at hac
            subst hac
            exact hhead b hb
      rcases hT with h' | h'
      · exact key T (Or.inl (List.mem_append.2 (Or.inl h'))) hTS
      · rcases List.mem_cons.1 h' with h'' | h''
        · exact key T (Or.inl (by simp [h''])) hTS
        · exact key T (Or.inr h'') hTS

lemma foldl_minStep_nodup (l : List (Finset String)) (acc : List (Finset String))
    (hacc : acc.Nodup) : (l.foldl minStep acc).Nodup := by
  induction l generalizing acc with
  | nil => exact hacc
  | cons cs l ih =>
    simp only [List.foldl_cons, minStep]
    by_cases h : (acc.any (fun m => decide (m ⊆ cs))) = true
    · rw [if_pos h]; exact ih acc hacc
    · rw [if_neg h]
      refine ih (acc ++ [cs]) ?_
      refine List.nodup_append.2 ⟨hacc, List.nodup_singleton cs, ?_⟩
      intro a ha
      simp only [List.mem_singleton]
      intro hac
      exact absurd (List.any_eq_true.2 ⟨a, ha, by simp [hac]⟩) h

/-- The minimality filter returns exactly the (first occurrences of the)
⊆-minimal candidate sets. -/
lemma mem_minimizeBySize_iff (css : List (Finset String)) (S : Finset String) :
    S ∈ minimizeBySize css ↔ S ∈ css ∧ ∀ T ∈ css, T ⊆ S → T = S := by
  haveI : IsTotal (Finset String) (fun a b => a.card ≤ b.card) :=
    ⟨fun a b => Nat.le_total a.card b.card⟩
  haveI : IsTrans (Finset String) (fun a b : Finset String => a.card ≤ b.card) :=
    ⟨fun _ _ _ h1 h2 => Nat.le_trans h1 h2⟩
  have hsort := List.sorted_insertionSort (fun a b : Finset String => a.card ≤ b.card) css
  have hmem : ∀ T : Finset String,
      T ∈ css.insertionSort (fun a b : Finset String => a.card ≤ b.card) ↔ T ∈ css := by
    intro T
    exact List.mem_insertionSort _
  constructor
  · intro hS
    have h1 := mem_foldl_minStep _ [] S hS
    have h2 := foldl_minStep_minimal _ [] hsort (by simp) (by simp) S hS
    refine ⟨(hmem S).1 (by tauto), ?_⟩
    intro T hT hTS
    exact h2 T (Or.inr ((hmem T).2 hT)) hTS
  · rintro ⟨hSmem, hSmin⟩
    obtain ⟨a, ha, haS⟩ :=
      foldl_minStep_covers _ [] S (Or.inr ((hmem S).2 hSmem))
    have haMem := mem_foldl_minStep _ [] a ha
    have : a = S := hSmin a ((hmem a).1 (by tauto)) haS
    exact this ▸ ha

lemma minimizeBySize_nodup (css : List (Finset String)) : (minimizeBySize css).Nodup :=
  foldl_minStep_nodup _ [] List.nodup_nil

lemma minimizeBySize_antichain (css : List (Finset String)) (S T : Finset String)
    (hS : S ∈ minimizeBySize css) (hT : T ∈ minimizeBySize css) (hST : S ⊆ T) : S = T := by
  have h1 := (mem_minimizeBySize_iff css S).1 hS
  have h2 := (mem_minimizeBySize_iff css T).1 hT
  exact h2.2 S h1.1 hST

/-! ## Structure of the enumerated paths -/

lemma simplePathsFrom_sound (g : SystemGraph) :
    ∀ (fuel : ℕ) (u t : String) (visited : List String) (p : List String),
      u ∉ visited → p ∈ simplePathsFrom g fuel u t visited →
      (∃ q, p = u :: q) ∧ p.getLast? = some t ∧
        List.Chain' (fun a b => b ∈ g.successors a) p ∧
        p.Nodup ∧ ∀ x ∈ p, x ∉ visited := by
  intro fuel
  induction fuel with
  | zero =>
    intro u t vis p _ hp
    simp [simplePathsFrom] at hp
  | succ fuel ih =>
    intro u t vis p hu hp
    rw [simplePathsFrom] at hp
    by_cases hut : u = t
    · rw [if_pos hut] at hp
      simp only [List.mem_singleton] at hp
      subst hp
      refine ⟨⟨[], by rw [hut]⟩, by simp, by simp, by simp, ?_⟩
      intro x hx
      simp only [List.mem_singleton] at hx
      subst hx
      rw [← hut]
      exact hu
    · rw [if_neg hut] at hp
      obtain ⟨v, hv, hpm⟩ := List.mem_flatMap.1 hp
      obtain ⟨p', hp', hpu⟩ := List.mem_map.1 hpm
      have hvf := List.mem_filter.1 hv
      have hvsucc : v ∈ g.successors u := hvf.1
      have hvnot : v ∉ u :: vis := by simpa using hvf.2
      obtain ⟨⟨q, hq⟩, hlast, hchain, hnodup, hdisj⟩ := ih v t (u :: vis) p' hvnot hp'
      subst hpu
      have hup' : u ∉ p' := by
        intro hmem
        exact hdisj u hmem (List.mem_cons_self u vis)
      refine ⟨⟨p', rfl⟩, ?_, ?_, ?_, ?_⟩
      · rw [hq]
        rw [hq] at hlast
        rw [List.getLast?_cons_cons]
        exact hlast
      · rw [hq]
        rw [hq] at hchain
        exact List.chain'_cons.2 ⟨hvsucc, hchain⟩
      · exact List.nodup_cons.2 ⟨hup', hnodup⟩
      · intro x hx
        rcases List.mem_cons.1 hx with hx | hx
        · exact hx ▸ hu
        · intro hxv
          exact hdisj x hx (List.mem_cons_of_mem u hxv)

lemma source_ne_sink : sourceNode ≠ sinkNode := by decide

lemma mem_get_all_paths_sound (g : SystemGraph) (p : List String)
    (hp : p ∈ g.get_all_paths) :
    (∃ q, p = sourceNode :: q) ∧ p.getLast? = some sinkNode ∧
      List.Chain' (fun a b => b ∈ g.successors a) p ∧ p.Nodup := by
  have h := simplePathsFrom_sound g g.nodeList.length sourceNode sinkNode [] p (by simp) hp
  exact ⟨h.1, h.2.1, h.2.2.1, h.2.2.2.1⟩

/-- Decomposition of an enumerated path into `source :: mid ++ [sink]` with a
sentinel-free, duplicate-free interior; the sentinel-stripping filter of all
three consumers returns exactly `mid`. -/
lemma get_all_paths_decomp (g : SystemGraph) (p : List String)
    (hp : p ∈ g.get_all_paths) :
    ∃ mid, p = sourceNode :: (mid ++ [sinkNode]) ∧ sourceNode ∉ mid ∧ sinkNode ∉ mid ∧
      mid.Nodup ∧
      p.filter (fun v => decide (v ≠ sourceNode ∧ v ≠ sinkNode)) = mid := by
  obtain ⟨⟨q, hq⟩, hlast, _, hnodup⟩ := mem_get_all_paths_sound g p hp
  have hqne : q ≠ [] := by
    intro hqnil
    rw [hq, hqnil] at hlast
    simp at hlast
    exact source_ne_sink hlast
  have hqlast : q.getLast? = some sinkNode := by
    rw [hq] at hlast
    cases q with
    | nil => exact absurd rfl hqne
    | cons a as =>
      rw [List.getLast?_cons_cons] at hlast
      exact hlast
  refine ⟨q.dropLast, ?_, ?_, ?_, ?_, ?_⟩
  · rw [hq]
    congr 1
    have := List.dropLast_append_getLast hqne
    rw [List.getLast?_eq_getLast q hqne] at hqlast
    simp only [Option.some.injEq] at hqlast
    rw [← hqlast]
    exact this.symm
  · -- sourceNode ∉ q.dropLast
    rw [hq] at hnodup
    have := (List.nodup_cons.1 hnodup).1
    intro hmem
    exact this (List.dropLast_sublist q |>.mem hmem)
  · -- sinkNode ∉ q.dropLast
    rw [hq] at hnodup
    have hqnd := (List.nodup_cons.1 hnodup).2
    have hdecomp : q = q.dropLast ++ [sinkNode] := by
      have := List.dropLast_append_getLast hqne
      rw [List.getLast?_eq_getLast q hqne] at hqlast
      simp only [Option.some.injEq] at hqlast
      rw [← hqlast]
      exact this.symm
    intro hmem
    rw [hdecomp] at hqnd
    have := List.disjoint_of_nodup_append hqnd
    exact this hmem (by simp)
  · rw [hq] at hnodup
    exact ((List.nodup_cons.1 hnodup).2).sublist (List.dropLast_sublist q)
  · -- the filter keeps exactly the interior
    have hdecomp : q = q.dropLast ++ [sinkNode] := by
      have := List.dropLast_append_getLast hqne
      rw [List.getLast?_eq_getLast q hqne] at hqlast
      simp only [Option.some.injEq] at hqlast
      rw [← hqlast]
      exact this.symm
    rw [hq] at hnodup
    have hsrcq : sourceNode ∉ q := (List.nodup_cons.1 hnodup).1
    have hqnd := (List.nodup_cons.1 hnodup).2
    have hsrcmid : sourceNode ∉ q.dropLast := fun hmem =>
      hsrcq (List.dropLast_sublist q |>.mem hmem)
    have hsinkmid : sinkNode ∉ q.dropLast := by
      intro hmem
      rw [hdecomp] at hqnd
      exact List.disjoint_of_nodup_append hqnd hmem (by simp)
    have h1 : (decide (sourceNode ≠ sourceNode ∧ sourceNode ≠ sinkNode)) = false := by decide
    have h2 : List.filter (fun v => decide (v ≠ sourceNode ∧ v ≠ sinkNode)) [sinkNode] = [] := by
      simp
    rw [hq, List.filter_cons, h1]
    simp only [Bool.false_eq_true, if_false]
    nth_rewrite 1 [hdecomp]
    rw [List.filter_append, h2, List.append_nil]
    rw [List.filter_eq_self]
    intro a ha
    simp only [decide_eq_true_eq]
    exact ⟨fun h => hsrcmid (h ▸ ha), fun h => hsinkmid (h ▸ ha)⟩

/-- Membership of the direct source→sink path when the direct edge exists. -/
lemma direct_path_mem (g : SystemGraph) (fuel : ℕ) (u t : String) (vis : List String)
    (hf : 2 ≤ fuel) (hut : u ≠ t) (hsucc : t ∈ g.successors u) (htv : t ∉ vis) :
    [u, t] ∈ simplePathsFrom g fuel u t vis := by
  match fuel, hf with
  | fuel + 2, _ =>
    rw [simplePathsFrom, if_neg hut]
    refine List.mem_flatMap.2 ⟨t, ?_, ?_⟩
    · refine List.mem_filter.2 ⟨hsucc, ?_⟩
      simp only [decide_eq_true_eq, List.mem_cons]
      rintro (h | h)
      · exact hut h.symm
      · exact htv h
    · refine List.mem_map.2 ⟨[t], ?_, rfl⟩
      rw [simplePathsFrom, if_pos rfl]
      simp

/-- In the absence of a direct edge every enumerated path has length ≥ 3. -/
lemma get_all_paths_len3 (g : SystemGraph) (hnd : sinkNode ∉ g.successors sourceNode)
    (p : List String) (hp : p ∈ g.get_all_paths) : 3 ≤ p.length := by
  obtain ⟨mid, hmid, _, _, _, _⟩ := get_all_paths_decomp g p hp
  rcases mid with _ | ⟨a, as⟩
  · -- p = [source, sink]: chain' would give the direct edge
    obtain ⟨_, _, hchain, _⟩ := mem_get_all_paths_sound g p hp
    rw [hmid] at hchain
    simp only [List.nil_append] at hchain
    exact absurd (List.chain'_cons.1 hchain).1 hnd
  · rw [hmid]
    simp only [List.length_cons, List.length_append, List.length_singleton]
    omega

/-! ## Hitting sets: the common semantics of both engines' candidates -/

/-- `S` intersects every component path: failing all of `S` breaks every
enumerated path, i.e. `S` is a (not necessarily minimal) cut set for the path
family `cps`. -/
def HitsAll (cps : List (List String)) (S : Finset String) : Prop :=
  ∀ p ∈ cps, ∃ c ∈ p, c ∈ S

/-- A minimal cut set for the path family: a hitting set none of whose proper
subsets is a hitting set. -/
def IsMinimalHS (cps : List (List String)) (S : Finset String) : Prop :=
  HitsAll cps S ∧ ∀ T ⊆ S, HitsAll cps T → T = S

lemma exists_minimal_hs (cps : List (List String)) :
    ∀ S : Finset String, HitsAll cps S → ∃ T, T ⊆ S ∧ IsMinimalHS cps T := by
  intro S
  induction S using Finset.strongInduction with
  | _ S ih =>
    intro hS
    by_cases hmin : ∀ T, T ⊆ S → HitsAll cps T → T = S
    · exact ⟨S, Finset.Subset.refl S, hS, hmin⟩
    · push_neg at hmin
      obtain ⟨T, hTS, hThits, hTne⟩ := hmin
      obtain ⟨U, hUT, hU⟩ := ih T (Finset.ssubset_iff_subset_ne.2 ⟨hTS, hTne⟩) hThits
      exact ⟨U, hUT.trans hTS, hU⟩

/-- If every candidate is a hitting set and every minimal hitting set is a
candidate, then the minimal candidates are exactly the minimal hitting
sets. -/
lemma minimals_eq_minimalHS (cps : List (List String)) (css : List (Finset String))
    (hsound : ∀ S ∈ css, HitsAll cps S)
    (hcomplete : ∀ S, IsMinimalHS cps S → S ∈ css) (x : Finset String) :
    (x ∈ css ∧ ∀ T ∈ css, T ⊆ x → T = x) ↔ IsMinimalHS cps x := by
  constructor
  · rintro ⟨hx, hxmin⟩
    refine ⟨hsound x hx, ?_⟩
    intro T hTx hThits
    obtain ⟨U, hUT, hU⟩ := exists_minimal_hs cps T hThits
    have hUx : U = x := hxmin U (hcomplete U hU) (hUT.trans hTx)
    exact Finset.Subset.antisymm hTx (hUx ▸ hUT)
  · rintro ⟨hxits, hxmin⟩
    refine ⟨hcomplete x ⟨hxits, hxmin⟩, ?_⟩
    intro T hT hTx
    exact hxmin T hTx (hsound T hT)

/-! ## MOCUS candidates are choice unions over the paths -/

/-- `PickExt cs ps S`: starting from the already-chosen set `cs`, one component
can be chosen from each path of `ps` so that the accumulated set is `S` —
exactly the sets produced by the MOCUS cross-product fan-out. -/
def PickExt (cs : Finset String) : List (List String) → Finset String → Prop
  | [], S => S = cs
  | p :: ps, S => ∃ c ∈ p, PickExt (insert c cs) ps S

lemma mem_foldl_crossStep (rest : List (List String)) :
    ∀ (init : List (Finset String)) (S : Finset String),
      S ∈ rest.foldl crossStep init ↔ ∃ cs ∈ init, PickExt cs rest S := by
  induction rest with
  | nil =>
    intro init S
    simp [PickExt]
  | cons p ps ih =>
    intro init S
    rw [List.foldl_cons, ih]
    constructor
    · rintro ⟨cs', hcs', hpick⟩
      obtain ⟨cs, hcs, c, hc, heq⟩ := by
        simpa [crossStep, List.mem_flatMap] using hcs'
      exact ⟨cs, hcs, c, hc, heq ▸ hpick⟩
    · rintro ⟨cs, hcs, c, hc, hpick⟩
      refine ⟨insert c cs, ?_, hpick⟩
      simp only [crossStep, List.mem_flatMap]
      exact ⟨cs, hcs, List.mem_map.2 ⟨c, hc, rfl⟩⟩

lemma pickExt_sound (ps : List (List String)) :
    ∀ (cs S : Finset String), PickExt cs ps S →
      cs ⊆ S ∧ ∀ p ∈ ps, ∃ c ∈ p, c ∈ S := by
  induction ps with
  | nil =>
    intro cs S h
    rw [PickExt] at h
    subst h
    exact ⟨Finset.Subset.refl _, by simp⟩
  | cons p ps ih =>
    intro cs S h
    obtain ⟨c, hc, hpick⟩ := h
    obtain ⟨hsub, hhits⟩ := ih (insert c cs) S hpick
    refine ⟨(Finset.subset_insert c cs).trans hsub, ?_⟩
    intro q hq
    rcases List.mem_cons.1 hq with hq | hq
    · exact ⟨c, hq ▸ hc, hsub (Finset.mem_insert_self c cs)⟩
    · exact hhits q hq

lemma pickExt_complete (ps : List (List String)) :
    ∀ (cs S : Finset String), cs ⊆ S →
      (∀ p ∈ ps, ∃ c ∈ p, c ∈ S) →
      (∀ v ∈ S, v ∉ cs → ∃ q ∈ ps, ∀ c ∈ q, c ∈ S → c = v) →
      PickExt cs ps S := by
  induction ps with
  | nil =>
    intro cs S hsub _ hpriv
    rw [PickExt]
    refine Finset.Subset.antisymm ?_ hsub
    intro v hv
    by_contra hvc
    obtain ⟨q, hq, _⟩ := hpriv v hv hvc
    cases hq
  | cons p ps ih =>
    intro cs S hsub hhits hpriv
    obtain ⟨c₀, hc₀p, hc₀S⟩ := hhits p (List.mem_cons_self p ps)
    refine ⟨c₀, hc₀p, ih (insert c₀ cs) S (Finset.insert_subset hc₀S hsub) ?_ ?_⟩
    · intro q hq
      exact hhits q (List.mem_cons_of_mem p hq)
    · intro v hv hvc
      have hvcs : v ∉ cs := fun h => hvc (Finset.mem_insert_of_mem h)
      have hvc₀ : v ≠ c₀ := fun h => hvc (h ▸ Finset.mem_insert_self c₀ cs)
      obtain ⟨q, hq, hqpriv⟩ := hpriv v hv hvcs
      rcases List.mem_cons.1 hq with hq' | hq'
      · exact absurd (hqpriv c₀ (hq' ▸ hc₀p) hc₀S).symm hvc₀
      · exact ⟨q, hq', hqpriv⟩

/-- Every minimal hitting set has, for each of its members, a path met only at
that member. -/
lemma minimalHS_private (cps : List (List String)) (S : Finset String)
    (hS : IsMinimalHS cps S) :
    ∀ v ∈ S, ∃ q ∈ cps, ∀ c ∈ q, c ∈ S → c = v := by
  intro v hv
  by_contra hno
  push_neg at hno
  have herase : HitsAll cps (S.erase v) := by
    intro q hq
    obtain ⟨c, hcq, hcS, hcv⟩ := hno q hq
    exact ⟨c, hcq, Finset.mem_erase.2 ⟨hcv, hcS⟩⟩
  have heq := hS.2 (S.erase v) (Finset.erase_subset v S) herase
  have hvin : v ∈ S.erase v := heq.symm ▸ hv
  exact Finset.not_mem_erase v S hvin

lemma mocusCross_sound (cps : List (List String)) (S : Finset String)
    (hS : S ∈ mocusCross cps) : HitsAll cps S := by
  cases cps with
  | nil => cases hS
  | cons p rest =>
    rw [mocusCross] at hS
    obtain ⟨cs, hcs, hpick⟩ := (mem_foldl_crossStep rest _ S).1 hS
    obtain ⟨c, hc, hcsc⟩ := List.mem_map.1 hcs
    obtain ⟨hsub, hhits⟩ := pickExt_sound rest cs S hpick
    intro q hq
    rcases List.mem_cons.1 hq with hq' | hq'
    · refine ⟨c, hq' ▸ hc, ?_⟩
      have : c ∈ cs := by rw [← hcsc]; exact Finset.mem_singleton_self c
      exact hsub this
    · exact hhits q hq'

lemma mocusCross_complete (cps : List (List String)) (S : Finset String)
    (hne : cps ≠ []) (hS : IsMinimalHS cps S) : S ∈ mocusCross cps := by
  cases cps with
  | nil => exact absurd rfl hne
  | cons p rest =>
    obtain ⟨c₀, hc₀p, hc₀S⟩ := hS.1 p (List.mem_cons_self p rest)
    rw [mocusCross]
    refine (mem_foldl_crossStep rest _ S).2 ⟨{c₀}, List.mem_map.2 ⟨c₀, hc₀p, rfl⟩, ?_⟩
    refine pickExt_complete rest {c₀} S (Finset.singleton_subset_iff.2 hc₀S) ?_ ?_
    · intro q hq
      exact hS.1 q (List.mem_cons_of_mem p hq)
    · intro v hv hvc
      have hvc₀ : v ≠ c₀ := by simpa using hvc
      obtain ⟨q, hq, hqpriv⟩ := minimalHS_private (p :: rest) S hS v hv
      rcases List.mem_cons.1 hq with hq' | hq'
      · exact absurd (hqpriv c₀ (hq' ▸ hc₀p) hc₀S).symm hvc₀
      · exact ⟨q, hq', hqpriv⟩

/-- The MOCUS pipeline on a non-empty family of component paths returns
exactly the minimal hitting sets. -/
lemma mocus_core (cps : List (List String)) (hne : cps ≠ []) (x : Finset String) :
    x ∈ MOCUSAnalyzer.remove_non_minimal (mocusCross cps) ↔ IsMinimalHS cps x := by
  rw [MOCUSAnalyzer.remove_non_minimal, mem_minimizeBySize_iff]
  exact minimals_eq_minimalHS cps _ (fun S hS => mocusCross_sound cps S hS)
    (fun S hS => mocusCross_complete cps S hne hS) x

/-! ## BDD candidates are the hitting sets inside the support -/

lemma failureFun_eq_true (cps : List (List String)) (a : String → Bool) :
    failureFun cps a = true ↔ ∀ p ∈ cps, ∃ c ∈ p, a c = false := by
  simp only [failureFun, systemWorks, pathWorks, Bool.not_eq_true', List.any_eq_false,
    List.all_eq_true]
  constructor
  · intro h p hp
    by_contra hno
    push_neg at hno
    refine h p hp ?_
    intro c hc
    cases hac : a c with
    | false => exact absurd hac (hno c hc)
    | true => rfl
  · intro h p hp hall
    obtain ⟨c, hc, hcv⟩ := h p hp
    rw [hall c hc] at hcv
    cases hcv

lemma failureFun_eq_false (cps : List (List String)) (a : String → Bool) :
    failureFun cps a = false ↔ ∃ p ∈ cps, ∀ c ∈ p, a c = true := by
  simp only [failureFun, systemWorks, pathWorks, Bool.not_eq_false', List.any_eq_true,
    List.all_eq_true]

lemma not_constFalse (cps : List (List String)) (vars : List String)
    (_hne : cps ≠ []) (hpne : ∀ p ∈ cps, p ≠ []) :
    isConstFalse vars (failureFun cps) = false := by
  rw [isConstFalse]
  rw [List.all_eq_false]
  refine ⟨[], List.mem_sublists.2 (List.nil_sublist vars), ?_⟩
  have hval : failureFun cps (fun _ => false) = true := by
    rw [failureFun_eq_true]
    intro p hp
    cases p with
    | nil => exact absurd rfl (hpne [] hp)
    | cons c cs => exact ⟨c, List.mem_cons_self c cs, rfl⟩
  simp [hval]

lemma not_constTrue (cps : List (List String)) (vars : List String)
    (hne : cps ≠ []) (hvars : ∀ p ∈ cps, ∀ c ∈ p, c ∈ vars) :
    isConstTrue vars (failureFun cps) = false := by
  rw [isConstTrue]
  rw [List.all_eq_false]
  refine ⟨vars, List.mem_sublists.2 (List.Sublist.refl vars), ?_⟩
  simp only [Bool.not_eq_true]
  cases cps with
  | nil => exact absurd rfl hne
  | cons p rest =>
    rw [failureFun_eq_false]
    exact ⟨p, List.mem_cons_self p rest, fun c hc =>
      decide_eq_true (hvars p (List.mem_cons_self p rest) c hc)⟩

lemma mem_supportOf (vars : List String) (f : (String → Bool) → Bool) (v : String) :
    v ∈ supportOf vars f ↔ v ∈ vars ∧ dependsOn vars f v = true := by
  rw [supportOf]
  simp [List.mem_filter]

/-- Every member of a minimal hitting set is in the support of the failure
function. -/
lemma minimalHS_mem_support (cps : List (List String)) (vars : List String)
    (hvars : ∀ p ∈ cps, ∀ c ∈ p, c ∈ vars) (S : Finset String)
    (hS : IsMinimalHS cps S) :
    ∀ v ∈ S, v ∈ supportOf vars (failureFun cps) := by
  intro v hv
  obtain ⟨q, hq, hqpriv⟩ := minimalHS_private cps S hS v hv
  obtain ⟨c, hcq, hcS⟩ := hS.1 q hq
  have hcv : c = v := hqpriv c hcq hcS
  have hvq : v ∈ q := hcv ▸ hcq
  rw [mem_supportOf]
  refine ⟨hvars q hq v hvq, ?_⟩
  rw [dependsOn, List.any_eq_true]
  refine ⟨vars.filter (fun u => decide (u ∉ S)), List.mem_sublists.2 (List.filter_sublist vars), ?_⟩
  have hnoterase : ¬ HitsAll cps (S.erase v) := by
    intro hhits
    have := hS.2 (S.erase v) (Finset.erase_subset v S) hhits
    exact Finset.not_mem_erase v S (this.symm ▸ hv)
  have h1 : failureFun cps
      (fun u => decide (u ∈ vars.filter (fun u => decide (u ∉ S)) ∨ u = v)) = false := by
    rw [failureFun_eq_false]
    rw [HitsAll] at hnoterase
    push_neg at hnoterase
    obtain ⟨q', hq', hq'all⟩ := hnoterase
    refine ⟨q', hq', ?_⟩
    intro c' hc'
    by_cases hcv' : c' = v
    · simp [hcv']
    · have hc'S : c' ∉ S := by
        intro hmem
        exact hq'all c' hc' (Finset.mem_erase.2 ⟨hcv', hmem⟩)
      simp only [List.mem_filter, decide_eq_true_eq, Bool.decide_or, Bool.or_eq_true,
        decide_eq_true_eq]
      exact Or.inl ⟨hvars q' hq' c' hc', hc'S⟩
  have h2 : failureFun cps
      (fun u => decide (u ∈ vars.filter (fun u => decide (u ∉ S)) ∧ u ≠ v)) = true := by
    rw [failureFun_eq_true]
    intro p hp
    obtain ⟨c', hc', hc'S⟩ := hS.1 p hp
    refine ⟨c', hc', ?_⟩
    have hnot : c' ∉ vars.filter (fun u => decide (u ∉ S)) := by
      intro hmem
      have := (List.mem_filter.1 hmem).2
      simp only [decide_eq_true_eq] at this
      exact this hc'S
    refine decide_eq_false ?_
    rintro ⟨hmem, -⟩
    exact hnot hmem
  rw [h1, h2]
  rfl

lemma mem_pickZeroSets (cps : List (List String)) (vars : List String) (S : Finset String) :
    S ∈ pickZeroSets vars (failureFun cps) ↔
      (∀ v ∈ S, v ∈ supportOf vars (failureFun cps)) ∧ HitsAll cps S := by
  rw [pickZeroSets]
  simp only [List.mem_dedup, List.mem_map, List.mem_filter, List.mem_sublists]
  constructor
  · rintro ⟨Z, ⟨hZsub, hZcond⟩, rfl⟩
    have hZsupp : ∀ v ∈ Z, v ∈ supportOf vars (failureFun cps) := fun v hv => hZsub.mem hv
    refine ⟨fun v hv => hZsupp v (List.mem_toFinset.1 hv), ?_⟩
    have := (failureFun_eq_true cps _).1 hZcond
    intro p hp
    obtain ⟨c, hc, hcv⟩ := this p hp
    refine ⟨c, hc, ?_⟩
    by_cases hcsupp : c ∈ supportOf vars (failureFun cps)
    · rw [if_pos hcsupp] at hcv
      simp only [decide_eq_false_iff_not, Decidable.not_not] at hcv
      exact List.mem_toFinset.2 hcv
    · rw [if_neg hcsupp] at hcv
      cases hcv
  · rintro ⟨hSsupp, hShits⟩
    refine ⟨(supportOf vars (failureFun cps)).filter (fun u => decide (u ∈ S)), ⟨?_, ?_⟩, ?_⟩
    · exact List.filter_sublist _
    · rw [failureFun_eq_true]
      intro p hp
      obtain ⟨c, hc, hcS⟩ := hShits p hp
      refine ⟨c, hc, ?_⟩
      rw [if_pos (hSsupp c hcS)]
      simp only [decide_eq_false_iff_not, Decidable.not_not]
      exact List.mem_filter.2 ⟨hSsupp c hcS, decide_eq_true hcS⟩
    · ext x
      simp only [List.mem_toFinset, List.mem_filter, decide_eq_true_eq]
      exact ⟨fun h => h.2, fun h => ⟨hSsupp x h, h⟩⟩

/-- The BDD extraction on a non-degenerate failure function returns exactly
the minimal hitting sets. -/
lemma bdd_extract_core (cps : List (List String)) (vars : List String)
    (hne : cps ≠ []) (hpne : ∀ p ∈ cps, p ≠ [])
    (hvars : ∀ p ∈ cps, ∀ c ∈ p, c ∈ vars) (x : Finset String) :
    x ∈ BDDAnalyzer.extract_minimal_cut_sets vars (failureFun cps) ↔ IsMinimalHS cps x := by
  rw [BDDAnalyzer.extract_minimal_cut_sets]
  rw [if_neg (by rw [not_constFalse cps vars hne hpne]; exact Bool.false_ne_true)]
  rw [if_neg (by rw [not_constTrue cps vars hne hvars]; exact Bool.false_ne_true)]
  rw [BDDAnalyzer.minimize_cut_sets, mem_minimizeBySize_iff]
  refine minimals_eq_minimalHS cps _ ?_ ?_ x
  · intro S hS
    exact ((mem_pickZeroSets cps vars S).1 hS).2
  · intro S hS
    exact (mem_pickZeroSets cps vars S).2 ⟨minimalHS_mem_support cps vars hvars S hS, hS.1⟩

/-! ## Engine-level equivalence on zero-rate-free networks -/

lemma mem_successors (g : SystemGraph) (u v : String) :
    v ∈ g.successors u ↔ (u, v) ∈ g.edges := by
  rw [SystemGraph.successors, List.mem_dedup, List.mem_map]
  constructor
  · rintro ⟨e, he, rfl⟩
    obtain ⟨hmem, hfst⟩ := List.mem_filter.1 he
    have heq : e.1 = u := of_decide_eq_true hfst
    rw [← heq]
    simpa using hmem
  · intro h
    exact ⟨(u, v), List.mem_filter.2 ⟨h, by simp⟩, rfl⟩

lemma chain'_mem_cases {α : Type} {r : α → α → Prop} :
    ∀ (p : List α), List.Chain' r p → ∀ x ∈ p,
      (∃ q, p = x :: q) ∨ ∃ a ∈ p, r a x := by
  intro p
  induction p with
  | nil => intro _ x hx; cases hx
  | cons u rest ih =>
    intro hchain x hx
    rcases List.mem_cons.1 hx with hx' | hx'
    · exact Or.inl ⟨rest, by rw [hx']⟩
    · cases rest with
      | nil => cases hx'
      | cons w ws =>
        have hc := List.chain'_cons.1 hchain
        rcases ih hc.2 x hx' with h | h
        · obtain ⟨q, hq⟩ := h
          have hwx : w = x := by injection hq with h1 _
          exact Or.inr ⟨u, List.mem_cons_self u _, hwx ▸ hc.1⟩
        · obtain ⟨a, ha, har⟩ := h
          exact Or.inr ⟨a, List.mem_cons_of_mem u ha, har⟩

lemma path_nodes_mem_nodeList (g : SystemGraph) (hwf : g.WF) (p : List String)
    (hp : p ∈ g.get_all_paths) : ∀ x ∈ p, x ∈ g.nodeList := by
  obtain ⟨⟨q, hq⟩, _, hchain, _⟩ := mem_get_all_paths_sound g p hp
  intro x hx
  rcases chain'_mem_cases p hchain x hx with h | h
  · obtain ⟨q', hq'⟩ := h
    have hx : x = sourceNode := by
      rw [hq] at hq'
      injection hq' with h1 _
      exact h1.symm
    rw [hx, SystemGraph.nodeList]
    exact List.mem_cons_self _ _
  · obtain ⟨a, _, har⟩ := h
    exact (hwf (a, x) ((mem_successors g a x).1 har)).2

lemma interior_mem_components (g : SystemGraph) (hwf : g.WF) (p : List String)
    (hp : p ∈ g.get_all_paths) :
    ∀ c ∈ p.filter (fun v => decide (v ≠ sourceNode ∧ v ≠ sinkNode)),
      c ∈ g.components.map Component.id := by
  intro c hc
  obtain ⟨hcp, hcpred⟩ := List.mem_filter.1 hc
  obtain ⟨hcsrc, hcsink⟩ := of_decide_eq_true hcpred
  have := path_nodes_mem_nodeList g hwf p hp c hcp
  rw [SystemGraph.nodeList] at this
  rcases List.mem_cons.1 this with h | h
  · exact absurd h hcsrc
  rcases List.mem_cons.1 h with h' | h'
  · exact absurd h' hcsink
  · exact h'

lemma perfect_nil (comps : List Component)
    (hperf : ∀ c ∈ comps, perfectlyReliable c = false) :
    (comps.filter perfectlyReliable).map Component.id = [] := by
  have : comps.filter perfectlyReliable = [] := by
    rw [List.filter_eq_nil_iff]
    intro a ha
    rw [hperf a ha]
    exact Bool.false_ne_true
  rw [this]
  rfl

lemma stripped_nonempty (g : SystemGraph) (hdir : sinkNode ∉ g.successors sourceNode)
    (p : List String) (hp : p ∈ g.get_all_paths) :
    p.filter (fun v => decide (v ≠ sourceNode ∧ v ≠ sinkNode)) ≠ [] := by
  obtain ⟨mid, hmid, _, _, _, hfil⟩ := get_all_paths_decomp g p hp
  rw [hfil]
  intro hnil
  have hlen := get_all_paths_len3 g hdir p hp
  rw [hmid, hnil] at hlen
  simp at hlen

/-- On a well-formed network with no zero-failure-rate component, the two
cut-set engines return the same collection of cut sets. -/
lemma engines_agree (g : SystemGraph) (hwf : g.WF)
    (hperf : ∀ c ∈ g.components, perfectlyReliable c = false) :
    (MOCUSAnalyzer.find_minimal_cut_sets g).toFinset =
      (BDDAnalyzer.find_minimal_cut_sets g).toFinset := by
  rw [MOCUSAnalyzer.find_minimal_cut_sets, BDDAnalyzer.find_minimal_cut_sets]
  by_cases hdir : sinkNode ∈ g.successors sourceNode
  · rw [if_pos hdir, if_pos hdir]
  · rw [if_neg hdir, if_neg hdir]
    have hlen3 := get_all_paths_len3 g hdir
    have hfilt_m :
        (g.get_all_paths).filter (fun p => decide (2 < p.length)) = g.get_all_paths :=
      List.filter_eq_self.2 (fun p hp => decide_eq_true (by have := hlen3 p hp; omega))
    have hfilt_b :
        (g.get_all_paths).filter (fun p => decide (p.length ≠ 2)) = g.get_all_paths :=
      List.filter_eq_self.2 (fun p hp => decide_eq_true (by have := hlen3 p hp; omega))
    rw [hfilt_m]
    by_cases hpe : g.get_all_paths = []
    · rw [if_pos hpe, if_pos hpe]
    · rw [if_neg hpe, if_neg hpe]
      have hcp_b : BDDAnalyzer.component_paths g =
          (g.get_all_paths).map
            (fun p => p.filter (fun v => decide (v ≠ sourceNode ∧ v ≠ sinkNode))) := by
        rw [BDDAnalyzer.component_paths, hfilt_b]
        refine List.filter_eq_self.2 ?_
        intro q hq
        obtain ⟨p, hp, rfl⟩ := List.mem_map.1 hq
        exact decide_eq_true (stripped_nonempty g hdir p hp)
      have hcp_m : MOCUSAnalyzer.component_paths g =
          (g.get_all_paths).map
            (fun p => p.filter (fun v => decide (v ≠ sourceNode ∧ v ≠ sinkNode))) := by
        rw [MOCUSAnalyzer.component_paths, hfilt_m]
        simp only [perfect_nil g.components hperf, List.not_mem_nil, not_false_iff, and_true]
        refine List.filter_eq_self.2 ?_
        intro q hq
        obtain ⟨p, hp, rfl⟩ := List.mem_map.1 hq
        exact decide_eq_true (stripped_nonempty g hdir p hp)
      have hcpsne : (g.get_all_paths).map
          (fun p => p.filter (fun v => decide (v ≠ sourceNode ∧ v ≠ sinkNode))) ≠ [] := by
        intro h
        exact hpe (List.map_eq_nil_iff.1 h)
      rw [hcp_m, if_neg hcpsne]
      have hpne : ∀ q ∈ (g.get_all_paths).map
          (fun p => p.filter (fun v => decide (v ≠ sourceNode ∧ v ≠ sinkNode))), q ≠ [] := by
        intro q hq
        obtain ⟨p, hp, rfl⟩ := List.mem_map.1 hq
        exact stripped_nonempty g hdir p hp
      have hvars : ∀ q ∈ (g.get_all_paths).map
          (fun p => p.filter (fun v => decide (v ≠ sourceNode ∧ v ≠ sinkNode))),
          ∀ c ∈ q, c ∈ g.components.map Component.id := by
        intro q hq c hc
        obtain ⟨p, hp, rfl⟩ := List.mem_map.1 hq
        exact interior_mem_components g hwf p hp c hc
      have hhasdir : ((g.get_all_paths).any (fun p => decide (p.length = 2))) = false := by
        rw [List.any_eq_false]
        intro p hp
        simp only [decide_eq_true_eq]
        have := hlen3 p hp
        omega
      rw [hcp_b, hhasdir]
      have hcsf : BDDAnalyzer.create_structure_function
          ((g.get_all_paths).map
            (fun p => p.filter (fun v => decide (v ≠ sourceNode ∧ v ≠ sinkNode)))) false =
          failureFun ((g.get_all_paths).map
            (fun p => p.filter (fun v => decide (v ≠ sourceNode ∧ v ≠ sinkNode)))) := by
        rw [BDDAnalyzer.create_structure_function,
          if_neg (Bool.false_ne_true), if_neg hcpsne]
      rw [hcsf]
      ext x
      rw [List.mem_toFinset, List.mem_toFinset]
      rw [mocus_core _ hcpsne x]
      rw [bdd_extract_core _ _ hcpsne hpne hvars x]

/-! ## Pure series networks -/

/-- The edge chain of a pure series network: `u → v₁ → … → vₙ → sink`. -/
def chainEdges : String → List String → List (String × String)
  | u, [] => [(u, sinkNode)]
  | u, v :: vs => (u, v) :: chainEdges v vs

/-- The pure series network `source→C1→C2→…→Cn→sink` over the given
components. -/
def seriesNet (comps : List Component) : SystemGraph :=
  { components := comps, edges := chainEdges sourceNode (comps.map Component.id) }

lemma chainEdges_fst_mem : ∀ (vs : List String) (u : String) (e : String × String),
    e ∈ chainEdges u vs → e.1 ∈ u :: vs := by
  intro vs
  induction vs with
  | nil =>
    intro u e he
    rw [chainEdges] at he
    simp only [List.mem_singleton] at he
    subst he
    exact List.mem_cons_self _ _
  | cons v vs ih =>
    intro u e he
    rw [chainEdges] at he
    rcases List.mem_cons.1 he with h | h
    · subst h
      exact List.mem_cons_self _ _
    · have := ih v e h
      rcases List.mem_cons.1 this with h' | h'
      · exact h' ▸ List.mem_cons_of_mem _ (List.mem_cons_self _ _)
      · exact List.mem_cons_of_mem _ (List.mem_cons_of_mem _ h')

lemma chainEdges_snd_mem : ∀ (vs : List String) (u : String) (e : String × String),
    e ∈ chainEdges u vs → e.2 ∈ vs ++ [sinkNode] := by
  intro vs
  induction vs with
  | nil =>
    intro u e he
    rw [chainEdges] at he
    simp only [List.mem_singleton] at he
    subst he
    simp
  | cons v vs ih =>
    intro u e he
    rw [chainEdges] at he
    rcases List.mem_cons.1 he with h | h
    · subst h
      simp
    · have := ih v e h
      simp only [List.mem_append, List.mem_singleton] at this ⊢
      rcases this with h' | h'
      · exact Or.inl (List.mem_cons_of_mem _ h')
      · exact Or.inr h'

lemma seriesNet_wf (comps : List Component) : (seriesNet comps).WF := by
  intro e he
  have h1 := chainEdges_fst_mem _ _ _ he
  have h2 := chainEdges_snd_mem _ _ _ he
  constructor
  · rw [SystemGraph.nodeList]
    rcases List.mem_cons.1 h1 with h | h
    · exact h ▸ List.mem_cons_self _ _
    · exact List.mem_cons_of_mem _ (List.mem_cons_of_mem _ h)
  · rw [SystemGraph.nodeList]
    simp only [List.mem_append, List.mem_singleton] at h2
    rcases h2 with h | h
    · exact List.mem_cons_of_mem _ (List.mem_cons_of_mem _ h)
    · exact h ▸ List.mem_cons_of_mem _ (List.mem_cons_self _ _)

lemma chain_succ_aux (g : SystemGraph) :
    ∀ (vs : List String) (u : String) (E₀ : List (String × String)),
      g.edges = E₀ ++ chainEdges u vs →
      (∀ e ∈ E₀, e.1 ∉ u :: vs) →
      (u :: vs).Nodup → sinkNode ∉ u :: vs →
      List.Chain' (fun a b => g.successors a = [b]) (u :: (vs ++ [sinkNode])) := by
  intro vs
  induction vs with
  | nil =>
    intro u E₀ hedges h₀ _ _
    have hsucc : g.successors u = [sinkNode] := by
      rw [SystemGraph.successors, hedges, List.filter_append]
      have h1 : E₀.filter (fun e => decide (e.1 = u)) = [] := by
        rw [List.filter_eq_nil_iff]
        intro e he
        simp only [decide_eq_true_eq]
        intro h
        exact h₀ e he (h ▸ List.mem_cons_self u [])
      rw [h1, chainEdges]
      simp
    simp only [List.nil_append]
    exact List.chain'_cons.2 ⟨hsucc, List.chain'_singleton _⟩
  | cons v vs ih =>
    intro u E₀ hedges h₀ hnodup hsink
    have hun : u ∉ v :: vs := (List.nodup_cons.1 hnodup).1
    have hsucc : g.successors u = [v] := by
      rw [SystemGraph.successors, hedges, chainEdges, List.filter_append]
      have h1 : E₀.filter (fun e => decide (e.1 = u)) = [] := by
        rw [List.filter_eq_nil_iff]
        intro e he
        simp only [decide_eq_true_eq]
        intro h
        exact h₀ e he (h ▸ List.mem_cons_self _ _)
      have h2 : (chainEdges v vs).filter (fun e => decide (e.1 = u)) = [] := by
        rw [List.filter_eq_nil_iff]
        intro e he
        simp only [decide_eq_true_eq]
        intro h
        exact hun (h ▸ chainEdges_fst_mem vs v e he)
      rw [h1, List.filter_cons]
      simp only [decide_eq_true_eq, if_pos rfl, h2]
      simp
    have hchain : List.Chain' (fun a b => g.successors a = [b]) (v :: (vs ++ [sinkNode])) := by
      refine ih v (E₀ ++ [(u, v)]) ?_ ?_ (List.nodup_cons.1 hnodup).2 ?_
      · rw [hedges, chainEdges]
        simp
      · intro e he
        rcases List.mem_append.1 he with h | h
        · exact fun hm => h₀ e h (List.mem_cons_of_mem u hm)
        · simp only [List.mem_singleton] at h
          subst h
          exact hun
      · intro hm
        exact hsink (List.mem_cons_of_mem u hm)
    simp only [List.cons_append]
    exact List.chain'_cons.2 ⟨hsucc, hchain⟩

lemma dfs_chain (g : SystemGraph) :
    ∀ (rest : List String) (u : String) (fuel : ℕ) (vis : List String),
      List.Chain' (fun a b => g.successors a = [b]) (u :: (rest ++ [sinkNode])) →
      rest.Nodup → (∀ x ∈ rest, x ∉ vis) → u ∉ rest → u ∉ vis →
      sinkNode ∉ rest → sinkNode ∉ vis → u ≠ sinkNode →
      rest.length + 2 ≤ fuel →
      simplePathsFrom g fuel u sinkNode vis = [u :: (rest ++ [sinkNode])] := by
  intro rest
  induction rest with
  | nil =>
    intro u fuel vis hchain _ _ _ huvis _ hsinkvis husink hfuel
    have hsucc : g.successors u = [sinkNode] := by
      simpa using hchain
    cases fuel with
    | zero => exact absurd hfuel (by omega)
    | succ f =>
      cases f with
      | zero => exact absurd hfuel (by omega)
      | succ f' =>
        rw [simplePathsFrom, if_neg husink, hsucc]
        have hfil : [sinkNode].filter (fun v => decide (v ∉ u :: vis)) = [sinkNode] := by
          rw [List.filter_eq_self]
          intro a ha
          simp only [List.mem_singleton] at ha
          subst ha
          simp only [decide_eq_true_eq, List.mem_cons]
          rintro (h | h)
          · exact husink h.symm
          · exact hsinkvis h
        rw [hfil]
        simp only [List.flatMap_cons, List.flatMap_nil, List.append_nil]
        rw [simplePathsFrom, if_pos rfl]
        simp
  | cons v rest ih =>
    intro u fuel vis hchain hnodup hdisj hurest huvis hsinkrest hsinkvis husink hfuel
    have hchain2 : List.Chain' (fun a b => g.successors a = [b])
        (u :: v :: (rest ++ [sinkNode])) := by
      simpa using hchain
    have hsucc : g.successors u = [v] := (List.chain'_cons.1 hchain2).1
    have hchaintail := (List.chain'_cons.1 hchain2).2
    have hvu : v ≠ u := fun h => hurest (h ▸ List.mem_cons_self v rest)
    have hvvis : v ∉ vis := hdisj v (List.mem_cons_self v rest)
    have hvsink : v ≠ sinkNode := fun h => hsinkrest (h ▸ List.mem_cons_self v rest)
    cases fuel with
    | zero => exact absurd hfuel (by omega)
    | succ f =>
      rw [simplePathsFrom, if_neg husink, hsucc]
      have hfil : [v].filter (fun w => decide (w ∉ u :: vis)) = [v] := by
        rw [List.filter_eq_self]
        intro a ha
        simp only [List.mem_singleton] at ha
        subst ha
        simp only [decide_eq_true_eq, List.mem_cons]
        rintro (h | h)
        · exact hvu h
        · exact hvvis h
      rw [hfil]
      have hrec : simplePathsFrom g f v sinkNode (u :: vis) =
          [v :: (rest ++ [sinkNode])] := by
        refine ih v f (u :: vis) hchaintail (List.nodup_cons.1 hnodup).2 ?_
          (List.nodup_cons.1 hnodup).1 ?_ (fun h => hsinkrest (List.mem_cons_of_mem v h)) ?_
          hvsink ?_
        · intro x hx
          simp only [List.mem_cons]
          rintro (h | h)
          · exact hurest (h ▸ List.mem_cons_of_mem v hx)
          · exact hdisj x (List.mem_cons_of_mem v hx) h
        · simp only [List.mem_cons]
          rintro (h | h)
          · exact hvu h
          · exact hvvis h
        · simp only [List.mem_cons]
          rintro (h | h)
          · exact husink h.symm
          · exact hsinkvis h
        · simp only [List.length_cons] at hfuel ⊢
          omega
      simp only [List.flatMap_cons, List.flatMap_nil, List.append_nil, hrec]
      simp

/-- The path enumeration of a pure series network: exactly the one path
through all components in order. -/
lemma seriesNet_paths (comps : List Component)
    (hnodup : (comps.map Component.id).Nodup)
    (hsrc : sourceNode ∉ comps.map Component.id)
    (hsink : sinkNode ∉ comps.map Component.id) :
    (seriesNet comps).get_all_paths =
      [sourceNode :: ((comps.map Component.id) ++ [sinkNode])] := by
  rw [SystemGraph.get_all_paths]
  have hchain := chain_succ_aux (seriesNet comps) (comps.map Component.id) sourceNode []
    (by simp [seriesNet]) (by simp)
    (List.nodup_cons.2 ⟨hsrc, hnodup⟩)
    (by
      simp only [List.mem_cons]
      rintro (h | h)
      · exact source_ne_sink h.symm
      · exact hsink h)
  refine dfs_chain (seriesNet comps) (comps.map Component.id) sourceNode _ [] hchain hnodup
    (by simp) hsrc (by simp) hsink (by simp) source_ne_sink ?_
  rw [SystemGraph.nodeList]
  simp [seriesNet]

lemma isMinimalHS_single_path (ids : List String) (x : Finset String) :
    IsMinimalHS [ids] x ↔ ∃ v ∈ ids, x = {v} := by
  constructor
  · rintro ⟨hhits, hmin⟩
    obtain ⟨v, hv, hvx⟩ := hhits ids (List.mem_cons_self ids [])
    have heq : ({v} : Finset String) = x := by
      refine hmin {v} (Finset.singleton_subset_iff.2 hvx) ?_
      intro p hp
      rcases List.mem_cons.1 hp with h | h
      · exact ⟨v, h ▸ hv, Finset.mem_singleton_self v⟩
      · cases h
    exact ⟨v, hv, heq.symm⟩
  · rintro ⟨v, hv, rfl⟩
    constructor
    · intro p hp
      rcases List.mem_cons.1 hp with h | h
      · exact ⟨v, h ▸ hv, Finset.mem_singleton_self v⟩
      · cases h
    · intro T hT hhits
      obtain ⟨c, hc, hcT⟩ := hhits ids (List.mem_cons_self ids [])
      have hcv : c = v := Finset.mem_singleton.1 (hT hcT)
      exact Finset.Subset.antisymm hT (Finset.singleton_subset_iff.2 (hcv ▸ hcT))

lemma seriesNet_succ_source (comps : List Component) (c0 : Component) (rest : List Component)
    (hcomps : comps = c0 :: rest)
    (hnodup : (comps.map Component.id).Nodup)
    (hsrc : sourceNode ∉ comps.map Component.id)
    (hsink : sinkNode ∉ comps.map Component.id) :
    (seriesNet comps).successors sourceNode = [c0.id] := by
  subst hcomps
  have hchain := chain_succ_aux (seriesNet (c0 :: rest)) ((c0 :: rest).map Component.id)
    sourceNode []
    (by simp [seriesNet]) (by simp)
    (List.nodup_cons.2 ⟨hsrc, hnodup⟩)
    (by
      simp only [List.mem_cons]
      rintro (h | h)
      · exact source_ne_sink h.symm
      · exact hsink h)
  simp only [List.map_cons, List.cons_append] at hchain
  exact (List.chain'_cons.1 hchain).1

/-- The MOCUS engine on a pure series network returns exactly the singleton
cut sets of the components. -/
lemma mocus_seriesNet (comps : List Component) (hne : comps ≠ [])
    (hnodup : (comps.map Component.id).Nodup)
    (hsrc : sourceNode ∉ comps.map Component.id)
    (hsink : sinkNode ∉ comps.map Component.id)
    (hperf : ∀ c ∈ comps, perfectlyReliable c = false) :
    (MOCUSAnalyzer.find_minimal_cut_sets (seriesNet comps)).toFinset =
      ((comps.map Component.id).map (fun v => ({v} : Finset String))).toFinset := by
  obtain ⟨c0, rest, hcomps⟩ : ∃ c0 rest, comps = c0 :: rest := by
    cases comps with
    | nil => exact absurd rfl hne
    | cons a as => exact ⟨a, as, rfl⟩
  have hdir : sinkNode ∉ (seriesNet comps).successors sourceNode := by
    rw [seriesNet_succ_source comps c0 rest hcomps hnodup hsrc hsink]
    simp only [List.mem_singleton]
    intro h
    exact hsink (h ▸ (by rw [hcomps]; exact List.mem_cons_self _ _ : c0.id ∈ comps.map Component.id))
  have hpaths := seriesNet_paths comps hnodup hsrc hsink
  have hids_ne : comps.map Component.id ≠ [] := by
    rw [hcomps]; simp
  have hlen : (2 < (sourceNode :: (comps.map Component.id ++ [sinkNode])).length) := by
    rw [hcomps]
    simp only [List.length_cons, List.length_append, List.length_singleton, List.length_map]
    omega
  have hfilt : [sourceNode :: (comps.map Component.id ++ [sinkNode])].filter
      (fun p => decide (2 < p.length)) =
      [sourceNode :: (comps.map Component.id ++ [sinkNode])] := by
    rw [List.filter_eq_self]
    intro p hp
    simp only [List.mem_singleton] at hp
    subst hp
    exact decide_eq_true hlen
  have hstrip : (sourceNode :: (comps.map Component.id ++ [sinkNode])).filter
      (fun v => decide (v ≠ sourceNode ∧ v ≠ sinkNode)) = comps.map Component.id := by
    rw [List.filter_cons]
    have h1 : (decide (sourceNode ≠ sourceNode ∧ sourceNode ≠ sinkNode)) = false := by decide
    rw [h1]
    simp only [Bool.false_eq_true, if_false]
    rw [List.filter_append]
    have h2 : List.filter (fun v => decide (v ≠ sourceNode ∧ v ≠ sinkNode)) [sinkNode] = [] := by
      simp
    rw [h2, List.append_nil, List.filter_eq_self]
    intro a ha
    exact decide_eq_true ⟨fun h => hsrc (h ▸ ha), fun h => hsink (h ▸ ha)⟩
  have hcp : MOCUSAnalyzer.component_paths (seriesNet comps) = [comps.map Component.id] := by
    rw [MOCUSAnalyzer.component_paths, hpaths, hfilt]
    have hperfnil1 : ((seriesNet comps).components.filter perfectlyReliable).map Component.id
        = [] := by
      have hproj : (seriesNet comps).components = comps := rfl
      rw [hproj]
      exact perfect_nil comps hperf
    have hperfnil2 : (comps.filter perfectlyReliable).map Component.id = [] :=
      perfect_nil comps hperf
    simp only [hperfnil1, hperfnil2, List.not_mem_nil, not_false_iff, and_true]
    simp only [List.map_cons, List.map_nil, hstrip]
    rw [List.filter_eq_self]
    intro a ha
    simp only [List.mem_singleton] at ha
    subst ha
    exact decide_eq_true hids_ne
  rw [MOCUSAnalyzer.find_minimal_cut_sets, if_neg hdir, hpaths, hfilt,
    if_neg (by simp), hcp, if_neg (by simp [hids_ne])]
  ext x
  rw [List.mem_toFinset, List.mem_toFinset]
  rw [mocus_core [comps.map Component.id] (by simp) x]
  rw [isMinimalHS_single_path]
  simp only [List.mem_map]
  constructor
  · rintro ⟨v, hv, rfl⟩
    exact ⟨v, hv, rfl⟩
  · rintro ⟨v, hv, rfl⟩
    exact ⟨v, hv, rfl⟩

/-! ## Antichain structure of the engine outputs -/

/-- The antichain property claimed for the engine outputs: no duplicate entry
and no returned set a proper subset of another. -/
def IsAntichainList (l : List (Finset String)) : Prop :=
  l.Nodup ∧ ∀ S ∈ l, ∀ T ∈ l, S ≠ T → ¬ S ⊂ T

lemma antichain_nil : IsAntichainList [] := by
  refine ⟨List.nodup_nil, ?_⟩
  intro S hS
  cases hS

lemma antichain_single_empty : IsAntichainList [∅] := by
  refine ⟨List.nodup_singleton _, ?_⟩
  intro S hS T hT hne
  simp only [List.mem_singleton] at hS hT
  exact absurd (hT ▸ hS) hne

lemma antichain_minimizeBySize (css : List (Finset String)) :
    IsAntichainList (minimizeBySize css) := by
  refine ⟨minimizeBySize_nodup css, ?_⟩
  intro S hS T hT hne hsub
  exact hne (minimizeBySize_antichain css S T hS hT hsub.subset)

lemma cutSetProbsE_error (cut_sets : List (Finset String)) (probs : List (String × ℚ))
    (h : ∃ cs ∈ cut_sets, ∃ c ∈ cs, (probs.lookup c) = none) :
    cutSetProbsE cut_sets probs = Except.error "No probability defined for component" := by
  induction cut_sets with
  | nil =>
    obtain ⟨cs, hcs, _⟩ := h
    cases hcs
  | cons cs rest ih =>
    rw [cutSetProbsE]
    by_cases hcs : ∀ c ∈ cs, (probs.lookup c).isSome
    · rw [cutSetProbE, if_pos hcs]
      obtain ⟨cs', hcs', c, hc, hnone⟩ := h
      rcases List.mem_cons.1 hcs' with h' | h'
      · exfalso
        have := hcs c (h' ▸ hc)
        rw [hnone] at this
        cases this
      · rw [ih ⟨cs', h', c, hc, hnone⟩]
    · rw [cutSetProbE, if_neg hcs]

/-! ## Claim theorems -/

/-- C3: for every network whose graph contains a direct source→sink edge,
both engines' `find_minimal_cut_sets` return the empty cut-set list, and
`calculate_system_unreliability` applied to an empty cut-set list returns
unreliability `0.0` for every probability map. -/
theorem direct_edge_perfect_reliability (g : SystemGraph)
    (h : (sourceNode, sinkNode) ∈ g.edges) :
    MOCUSAnalyzer.find_minimal_cut_sets g = [] ∧
    BDDAnalyzer.find_minimal_cut_sets g = [] ∧
    ∀ probs : List (String × ℚ),
      InclusionExclusion.calculate_system_unreliability [] probs = Except.ok 0 := by
  have hd := (mem_successors g sourceNode sinkNode).2 h
  refine ⟨?_, ?_, ?_⟩
  · rw [MOCUSAnalyzer.find_minimal_cut_sets, if_pos hd]
  · rw [BDDAnalyzer.find_minimal_cut_sets, if_pos hd]
  · intro probs
    rfl

/-- A unit-rate exponential component named `A`, used by several witnesses. -/
def compA : Component :=
  { id := "A", name := "A", failure_distribution := some (FailureDist.exponential 1) }

/-- A unit-rate exponential component named `B`. -/
def compB : Component :=
  { id := "B", name := "B", failure_distribution := some (FailureDist.exponential 1) }

/-- A zero-rate exponential component named `A` (constructible through
`src/models/components.py` / the importers, which perform no positivity
check). -/
def compA0 : Component :=
  { id := "A", name := "A", failure_distribution := some (FailureDist.exponential 0) }

/-- Network with a direct source→sink edge alongside a component, for the C3
witness. -/
def witNetDirect : SystemGraph :=
  { components := [compA],
    edges := [(sourceNode, sinkNode), (sourceNode, "A"), ("A", sinkNode)] }

theorem direct_edge_perfect_reliability_witness :
    MOCUSAnalyzer.find_minimal_cut_sets witNetDirect = [] ∧
    BDDAnalyzer.find_minimal_cut_sets witNetDirect = [] ∧
    InclusionExclusion.calculate_system_unreliability []
      [("A", 1/2)] = Except.ok 0 := by
  obtain ⟨h1, h2, h3⟩ := direct_edge_perfect_reliability witNetDirect
    (List.mem_cons_self _ _)
  exact ⟨h1, h2, h3 [("A", 1/2)]⟩

/-- C6: for every network, the cut-set list returned by either engine is an
antichain under the subset ordering: no duplicate entries and no returned set
a proper subset of another. -/
theorem engines_return_antichain (g : SystemGraph) :
    IsAntichainList (MOCUSAnalyzer.find_minimal_cut_sets g) ∧
    IsAntichainList (BDDAnalyzer.find_minimal_cut_sets g) := by
  constructor
  · rw [MOCUSAnalyzer.find_minimal_cut_sets]
    split
    · exact antichain_nil
    · split
      · exact antichain_nil
      · split
        · exact antichain_nil
        · exact antichain_minimizeBySize _
  · rw [BDDAnalyzer.find_minimal_cut_sets]
    split
    · exact antichain_nil
    · split
      · exact antichain_nil
      · rw [BDDAnalyzer.extract_minimal_cut_sets]
        split
        · exact antichain_nil
        · split
          · exact antichain_single_empty
          · exact antichain_minimizeBySize _

/-- C7: whenever some cut set references a component id absent from the
probability map, `calculate_system_unreliability` raises
(`ValueError: No probability defined for component …`, the spec's
MissingProbability) instead of returning a value; the missing component is
never silently treated as always working. -/
theorem missing_probability_is_error (cut_sets : List (Finset String))
    (probs : List (String × ℚ))
    (h : ∃ cs ∈ cut_sets, ∃ c ∈ cs, (probs.lookup c) = none) :
    InclusionExclusion.calculate_system_unreliability cut_sets probs =
      Except.error "No probability defined for component" := by
  rw [InclusionExclusion.calculate_system_unreliability, cutSetProbsE_error cut_sets probs h]

theorem missing_probability_is_error_witness :
    InclusionExclusion.calculate_system_unreliability [{"A", "B"}]
      [("A", 1/2)] = Except.error "No probability defined for component" :=
  missing_probability_is_error [{"A", "B"}] [("A", 1/2)]
    ⟨{"A", "B"}, by simp, "B", by simp, by simp [List.lookup]⟩

/-- Series network `source→A→B→sink` where `A` carries a zero-failure-rate
exponential distribution: the C2 counterexample input. -/
def witNetZeroRate : SystemGraph :=
  { components := [compA0, compB],
    edges := [(sourceNode, "A"), ("A", "B"), ("B", sinkNode)] }

/-- C2 counterexample: on a network containing a zero-failure-rate component
the two engines disagree — MOCUS strips `A` and returns `{{B}}`, while the
decision-diagram engine performs no such stripping and returns
`{{A}, {B}}`. -/
theorem zero_rate_engines_disagree :
    (MOCUSAnalyzer.find_minimal_cut_sets witNetZeroRate).toFinset ≠
      (BDDAnalyzer.find_minimal_cut_sets witNetZeroRate).toFinset := by decide

/-- C2 (amended): on every well-formed network none of whose components
carries a zero-failure-rate distribution, the two engines return the same
collection of minimal cut sets, compared as a set of frozensets.  (The
decision-diagram engine applies no zero-failure-rate stripping, so on zero-rate
networks the results can differ — see the counterexample.) -/
theorem engines_agree_without_zero_rate (g : SystemGraph) (hwf : g.WF)
    (hperf : ∀ c ∈ g.components, perfectlyReliable c = false) :
    (MOCUSAnalyzer.find_minimal_cut_sets g).toFinset =
      (BDDAnalyzer.find_minimal_cut_sets g).toFinset :=
  engines_agree g hwf hperf

/-- Series network `source→A→B→sink` with unit failure rates. -/
def witNetSeries : SystemGraph :=
  { components := [compA, compB],
    edges := [(sourceNode, "A"), ("A", "B"), ("B", sinkNode)] }

theorem engines_agree_without_zero_rate_witness :
    (MOCUSAnalyzer.find_minimal_cut_sets witNetSeries).toFinset =
      (BDDAnalyzer.find_minimal_cut_sets witNetSeries).toFinset :=
  engines_agree_without_zero_rate witNetSeries (by decide) (by decide)

/-- C9: for every pure series network `source→C1→…→Cn→sink` of `n ≥ 1`
components with pairwise-distinct non-sentinel ids, each carrying a
distribution that is not a zero-failure-rate one, both engines return exactly
the `n` singleton cut sets `{C1},…,{Cn}` (as a set of frozensets). -/
theorem series_singleton_cut_sets (comps : List Component) (hne : comps ≠ [])
    (hnodup : (comps.map Component.id).Nodup)
    (hsrc : sourceNode ∉ comps.map Component.id)
    (hsink : sinkNode ∉ comps.map Component.id)
    (hperf : ∀ c ∈ comps, perfectlyReliable c = false) :
    (MOCUSAnalyzer.find_minimal_cut_sets (seriesNet comps)).toFinset =
      ((comps.map Component.id).map (fun v => ({v} : Finset String))).toFinset ∧
    (BDDAnalyzer.find_minimal_cut_sets (seriesNet comps)).toFinset =
      ((comps.map Component.id).map (fun v => ({v} : Finset String))).toFinset := by
  have h1 := mocus_seriesNet comps hne hnodup hsrc hsink hperf
  have h2 := engines_agree (seriesNet comps) (seriesNet_wf comps) hperf
  exact ⟨h1, h2 ▸ h1⟩

theorem series_singleton_cut_sets_witness :
    (MOCUSAnalyzer.find_minimal_cut_sets (seriesNet [compA, compB])).toFinset =
      (([compA, compB].map Component.id).map (fun v => ({v} : Finset String))).toFinset ∧
    (BDDAnalyzer.find_minimal_cut_sets (seriesNet [compA, compB])).toFinset =
      (([compA, compB].map Component.id).map (fun v => ({v} : Finset String))).toFinset :=
  series_singleton_cut_sets [compA, compB] (by decide) (by decide) (by decide) (by decide)
    (by decide)

/-! ## Concrete evaluations of the probability engine -/

lemma calculate_probability_pair (a b : ℚ) :
    InclusionExclusion.calculate_probability [a, b] = a + b - a * b := by
  rw [InclusionExclusion.calculate_probability]
  norm_num [List.sublistsLen_succ_cons, List.sublistsLen_succ_nil, List.range_succ]
  ring

lemma lookup_eval_cons (a k : String) (b : ℚ) (es : List (String × ℚ)) :
    List.lookup a ((k, b) :: es) = if a == k then some b else List.lookup a es := by
  cases h : a == k <;> simp [List.lookup, h]

lemma specUnion_pair (S1 S2 : Finset String) (probs : String → ℚ) :
    specUnionUnreliability [S1, S2] probs =
      (∏ c ∈ S1, probs c) + (∏ c ∈ S2, probs c) - ∏ c ∈ S1 ∪ S2, probs c := by
  rw [specUnionUnreliability]
  norm_num [List.sublistsLen_succ_cons, List.sublistsLen_succ_nil, List.range_succ]
  ring_nf

/-- C1: at cut sets `{A,B}` and `{A,C}` sharing the component `A`, with every
failure probability `1/2`, the code computes `1/4 + 1/4 − (1/4)·(1/4) = 7/16`
(the k = 2 term is the product of the two cut-set probabilities, counting the
shared `A` twice), while the claimed inclusion-exclusion semantics — the
product over the **union** `{A,B,C}` — gives `1/4 + 1/4 − 1/8 = 3/8`.  The
code comment itself concedes the simplification ("In real applications, you
would need the joint probabilities"), contradicting the module's stated
purpose of exact reliability calculation. -/
theorem shared_component_union_bug :
    InclusionExclusion.calculate_system_unreliability
        [{"A", "B"}, {"A", "C"}] [("A", 1/2), ("B", 1/2), ("C", 1/2)] =
      Except.ok (7/16) ∧
    specUnionUnreliability [{"A", "B"}, {"A", "C"}] (fun _ => 1/2) = 3/8 ∧
    (7/16 : ℚ) ≠ 3/8 := by
  refine ⟨?_, ?_, by norm_num⟩
  · have hp1 : (∏ c ∈ ({"A", "B"} : Finset String),
        ((List.lookup c [("A", (1:ℚ)/2), ("B", 1/2), ("C", 1/2)]).getD 0)) = 1/4 := by
      rw [show ({"A", "B"} : Finset String) = insert "A" {"B"} from rfl]
      rw [Finset.prod_insert (by decide), Finset.prod_singleton]
      simp [lookup_eval_cons]
      norm_num
    have hp2 : (∏ c ∈ ({"A", "C"} : Finset String),
        ((List.lookup c [("A", (1:ℚ)/2), ("B", 1/2), ("C", 1/2)]).getD 0)) = 1/4 := by
      rw [show ({"A", "C"} : Finset String) = insert "A" {"C"} from rfl]
      rw [Finset.prod_insert (by decide), Finset.prod_singleton]
      simp [lookup_eval_cons]
      norm_num
    have hprobs : cutSetProbsE [{"A", "B"}, {"A", "C"}]
        [("A", (1:ℚ)/2), ("B", 1/2), ("C", 1/2)] = Except.ok [1/4, 1/4] := by
      rw [cutSetProbsE, cutSetProbE, if_pos (by decide)]
      rw [cutSetProbsE, cutSetProbE, if_pos (by decide)]
      rw [cutSetProbsE, hp1, hp2]
    rw [InclusionExclusion.calculate_system_unreliability, hprobs]
    show Except.ok (InclusionExclusion.calculate_probability [1/4, 1/4]) = Except.ok (7/16)
    rw [calculate_probability_pair]
    norm_num
  · rw [specUnion_pair]
    have h1 : (∏ _c ∈ ({"A", "B"} : Finset String), (1:ℚ)/2) = 1/4 := by
      rw [Finset.prod_const, show ({"A", "B"} : Finset String).card = 2 from by decide]
      norm_num
    have h2 : (∏ _c ∈ ({"A", "C"} : Finset String), (1:ℚ)/2) = 1/4 := by
      rw [Finset.prod_const, show ({"A", "C"} : Finset String).card = 2 from by decide]
      norm_num
    have h3 : (∏ _c ∈ (({"A", "B"} : Finset String) ∪ {"A", "C"}), (1:ℚ)/2) = 1/8 := by
      rw [Finset.prod_const,
        show (({"A", "B"} : Finset String) ∪ {"A", "C"}).card = 3 from by decide]
      norm_num
    rw [h1, h2, h3]
    norm_num

/-! ## Importance-measure evaluations -/

lemma imp_cut_set_prob_first (x y : ℚ) :
    ImportanceMeasures.cut_set_prob {"C1"} [("C1", x), ("C2", y)] = x := by
  have hc : ∀ c ∈ ({"C1"} : Finset String),
      ((List.lookup c [("C1", x), ("C2", y)]).isSome) := by
    simp [lookup_eval_cons]
  rw [ImportanceMeasures.cut_set_prob, if_pos hc, Finset.prod_singleton]
  simp [lookup_eval_cons]

lemma imp_cut_set_prob_second (x y : ℚ) :
    ImportanceMeasures.cut_set_prob {"C2"} [("C1", x), ("C2", y)] = y := by
  have hc : ∀ c ∈ ({"C2"} : Finset String),
      ((List.lookup c [("C1", x), ("C2", y)]).isSome) := by
    simp [lookup_eval_cons]
  rw [ImportanceMeasures.cut_set_prob, if_pos hc, Finset.prod_singleton]
  simp [lookup_eval_cons]

lemma eval_rel_two (x y : ℚ) :
    ImportanceMeasures.evaluate_reliability [{"C1"}, {"C2"}] [("C1", x), ("C2", y)] =
      x * y := by
  rw [ImportanceMeasures.evaluate_reliability]
  simp only [List.map_cons, List.map_nil]
  rw [imp_cut_set_prob_first, imp_cut_set_prob_second, calculate_probability_pair]
  ring

/-- C8: for the 2-component series system with minimal cut sets `{C1}` and
`{C2}` and component reliabilities `R1`, `R2` at the evaluation time (failure
probabilities `1−R1`, `1−R2`), `birnbaum_importance` returns exactly `R2` for
`C1` and `R1` for `C2`; each value is the system reliability with the
component clamped to working minus the system reliability with it clamped to
failed, both computed through `_evaluate_reliability`. -/
theorem birnbaum_two_component_series (R1 R2 : ℚ) :
    ImportanceMeasures.birnbaum_importance ["C1", "C2"]
        (fun c => if c = "C1" then 1 - R1 else 1 - R2) [{"C1"}, {"C2"}] =
      [("C1", R2), ("C2", R1)] := by
  rw [ImportanceMeasures.birnbaum_importance]
  simp only [List.map_cons, List.map_nil,
    show (("C1" : String) = "C1") = True from by simp,
    show (("C2" : String) = "C1") = False from by simp,
    show (("C2" : String) = "C2") = True from by simp,
    show (("C1" : String) = "C2") = False from by simp, if_true, if_false]
  rw [eval_rel_two, eval_rel_two, eval_rel_two, eval_rel_two]
  simp only [Prod.mk.injEq, List.cons.injEq, and_true, true_and]
  constructor <;> ring

/-- C10: in the importance calculator's internal reliability evaluation, a
cut-set member absent from the supplied map makes that cut set's probability
`0` — the component is silently treated as always working — in contrast to
the probability engine's hard error on the same input.  In the embedding
`birnbaum_importance` and `criticality_importance` are total functions built
from `cut_set_prob`, so they return a value (never raise) on cut sets
referencing ids outside `system.components`. -/
theorem importance_missing_component_zero (cs : Finset String)
    (probs : List (String × ℚ)) (h : ∃ c ∈ cs, (probs.lookup c) = none) :
    ImportanceMeasures.cut_set_prob cs probs = 0 ∧
      cutSetProbE cs probs = Except.error "No probability defined for component" := by
  have hnot : ¬ ∀ c ∈ cs, (probs.lookup c).isSome := by
    obtain ⟨c, hc, hn⟩ := h
    intro hall
    have := hall c hc
    rw [hn] at this
    cases this
  constructor
  · rw [ImportanceMeasures.cut_set_prob, if_neg hnot]
  · rw [cutSetProbE, if_neg hnot]

theorem importance_missing_component_zero_witness :
    ImportanceMeasures.cut_set_prob {"X"} [("A", 1)] = 0 ∧
      cutSetProbE {"X"} [("A", 1)] =
        Except.error "No probability defined for component" :=
  importance_missing_component_zero {"X"} [("A", 1)]
    ⟨"X", Finset.mem_singleton_self "X", by decide⟩

/-! ## Monte Carlo results -/

/-- C4 (amended): on a network with zero enumerable source→sink paths,
`MonteCarloSimulation.simulate` raises the typed no-paths error
(`ValueError("System has no valid paths")`) before any sampling, but both
cut-set engines return a normal empty cut-set list — the perfect-reliability
result — instead of raising. -/
theorem no_paths_simulation_error (g : SystemGraph) (h : g.get_all_paths = [])
    (ft : String → ℕ → ℚ) (tps : List ℚ) (nt : ℕ) (cb : Bool) :
    MonteCarloSimulation.simulate g ft tps nt cb = Except.error SimError.noValidPaths ∧
    MOCUSAnalyzer.find_minimal_cut_sets g = [] ∧
    BDDAnalyzer.find_minimal_cut_sets g = [] := by
  have hdir : sinkNode ∉ g.successors sourceNode := by
    intro hd
    have hmem := direct_path_mem g g.nodeList.length sourceNode sinkNode []
      (by simp [SystemGraph.nodeList]) source_ne_sink hd (by simp)
    rw [show simplePathsFrom g g.nodeList.length sourceNode sinkNode [] = g.get_all_paths
      from rfl, h] at hmem
    cases hmem
  refine ⟨?_, ?_, ?_⟩
  · rw [MonteCarloSimulation.simulate]
    rw [if_pos (by rw [SystemGraph.strippedPaths, h]; rfl)]
  · rw [MOCUSAnalyzer.find_minimal_cut_sets, if_neg hdir, if_pos (by rw [h]; rfl)]
  · rw [BDDAnalyzer.find_minimal_cut_sets, if_neg hdir, if_pos h]

/-- A network with one component and no edges at all: zero source→sink
paths. -/
def witNetNoPaths : SystemGraph := { components := [compA], edges := [] }

/-- C4 counterexample to the claim as stated: on a network with zero paths
the structural engines do NOT raise — they return the empty list as a normal
result; only the simulation raises. -/
theorem no_paths_engines_return_normally :
    MOCUSAnalyzer.find_minimal_cut_sets witNetNoPaths = [] ∧
    BDDAnalyzer.find_minimal_cut_sets witNetNoPaths = [] ∧
    MonteCarloSimulation.simulate witNetNoPaths (fun _ _ => 1) [1] 10 false =
      Except.error SimError.noValidPaths := by
  refine ⟨by decide, by decide, ?_⟩
  rfl

/-- A second no-paths network (two isolated components), for the C4 amended
witness. -/
def witNetNoPaths2 : SystemGraph := { components := [compA, compB], edges := [] }

theorem no_paths_simulation_error_witness :
    MonteCarloSimulation.simulate witNetNoPaths2 (fun _ _ => 2) [1, 2] 5 true =
      Except.error SimError.noValidPaths ∧
    MOCUSAnalyzer.find_minimal_cut_sets witNetNoPaths2 = [] ∧
    BDDAnalyzer.find_minimal_cut_sets witNetNoPaths2 = [] :=
  no_paths_simulation_error witNetNoPaths2 (by decide) (fun _ _ => 2) [1, 2] 5 true

/-- Network `source→A→sink` with one unit-rate component: a valid simulation
input with exactly one path. -/
def witNetOnePath : SystemGraph :=
  { components := [compA], edges := [(sourceNode, "A"), ("A", sinkNode)] }

lemma mcLoop_const_ok (nt : ℕ) (trials : List ℕ) (acc : ℕ) :
    mcLoop [["A"]] (fun _ _ => 2) nt 1 false trials acc = Except.ok acc := by
  induction trials generalizing acc with
  | nil => rfl
  | cons t ts ih =>
    rw [mcLoop]
    have h21 : decide ((2:ℚ) ≤ 1) = false := by rfl
    simp only [List.all_cons, List.all_nil, List.any_cons, List.any_nil, h21,
      Bool.or_false, Bool.and_true, Bool.false_eq_true, if_false, Bool.false_and]
    exact ih acc

/-- C5: on the one-path network with `num_trials = 50` — a valid simulation
input under the claim's own preconditions — supplying a progress callback
makes `simulate` evaluate `trial % (num_trials // 100) = trial % 0` and raise
`ZeroDivisionError` on the first trial, while the identical call without a
callback returns the normal result table: the callback is not advisory for
`1 ≤ num_trials < 100`. -/
theorem callback_zero_division_bug :
    MonteCarloSimulation.simulate witNetOnePath (fun _ _ => 2) [1] 50 true =
      Except.error SimError.zeroDivision ∧
    MonteCarloSimulation.simulate witNetOnePath (fun _ _ => 2) [1] 50 false =
      Except.ok [SimRow.mk 1 1 0 50 0] := by
  constructor
  · rfl
  · rw [MonteCarloSimulation.simulate]
    have hsp : witNetOnePath.strippedPaths = [["A"]] := by decide
    rw [hsp, if_neg (by decide)]
    rw [mcRows]
    have hloop : mcLoop [["A"]] (fun _ _ => 2) 50 1 false (List.range 50) 0 =
        Except.ok 0 := mcLoop_const_ok 50 (List.range 50) 0
    rw [hloop]
    simp only [Except.ok.injEq, List.cons.injEq, SimRow.mk.injEq, and_true]
    norm_num
    rfl

-- Spec §8 round-trip: for the disjoint singleton cut sets [{A},{B}] with
-- P(A)=0.1, P(B)=0.2 the engine returns 0.1+0.2−0.1·0.2 = 0.28 exactly.
example :
    InclusionExclusion.calculate_system_unreliability [{"A"}, {"B"}]
      [("A", 1/10), ("B", 2/10)] = Except.ok (28/100) := by
  simp [InclusionExclusion.calculate_system_unreliability, cutSetProbsE, cutSetProbE,
    InclusionExclusion.calculate_probability, List.sublistsLen_succ_cons,
    List.sublistsLen_succ_nil, List.lookup, List.range_succ, Function.comp]
  norm_num
